import Mathlib

/-!
# Verification of the text-comparison tool's core

A shallow embedding of the core of the text-comparison tool
(delimiter resolver `getDelimiter`, row parser `parseFile`, diff engine
`performComparison`), translated from the source JavaScript.  Strings are
modelled as lists of characters; JavaScript objects and `Map`s are modelled
as association lists with JavaScript's update semantics (assignment to an
existing key updates the value in place, otherwise appends; lookups take the
first — unique — matching entry).
-/

/-- Strings are modelled as lists of characters. -/
abbrev Str := List Char

/-- A parsed data row: an insertion-ordered mapping from column name to
trimmed string value (a JavaScript object with string keys). -/
abbrev Record := List (Str × Str)

/-- Convert a Lean string literal to the character-list model. -/
def s2l (s : String) : Str := s.data

/-- JavaScript whitespace (the ASCII part relevant to this tool): space,
tab, newline, carriage return, form feed and vertical tab, as recognised by
`String.prototype.trim`. -/
def isWs (c : Char) : Bool :=
  c = ' ' || c = '\t' || c = '\n' || c = '\r' || c = '\x0c' || c = '\x0b'

/-- Drop trailing characters satisfying `p` (helper for `trimStr`). -/
def dropEnd (p : Char → Bool) (l : Str) : Str :=
  (l.reverse.dropWhile p).reverse

/-- JavaScript `String.prototype.trim`: remove whitespace from both ends. -/
def trimStr (s : Str) : Str :=
  dropEnd isWs (s.dropWhile isWs)

/-- JavaScript `str.split(d)` for a single-character separator `d`:
the list of (possibly empty) segments between occurrences of `d`;
`''.split(d)` is `['']`. -/
def splitOn (d : Char) : Str → List Str
  | [] => [[]]
  | c :: rest =>
    if c = d then [] :: splitOn d rest
    else
      match splitOn d rest with
      | s :: ss => (c :: s) :: ss
      | [] => [[c]]

/-- JavaScript `str.split(/\r?\n/)`: split on `\n`, absorbing a carriage
return immediately preceding the newline into the separator. -/
def splitLines : Str → List Str
  | [] => [[]]
  | [c] => if c = '\n' then [[], []] else [[c]]
  | c :: d :: rest =>
    if c = '\n' then [] :: splitLines (d :: rest)
    else if c = '\r' && d = '\n' then [] :: splitLines rest
    else
      match splitLines (d :: rest) with
      | s :: ss => (c :: s) :: ss
      | [] => [[c]]

/-- Lookup in an association list (JavaScript property read / `Map.get`):
first matching entry, `none` when the key is absent (`undefined`). -/
def assocGet {α : Type} (m : List (Str × α)) (k : Str) : Option α :=
  match m with
  | [] => none
  | (k', v) :: rest => if k' = k then some v else assocGet rest k

/-- Update-or-append in an association list (JavaScript property write /
`Map.set`): an existing key keeps its position and gets the new value,
a new key is appended at the end. -/
def assocSet {α : Type} (m : List (Str × α)) (k : Str) (v : α) :
    List (Str × α) :=
  match m with
  | [] => [(k, v)]
  | (k', v') :: rest =>
    if k' = k then (k', v) :: rest else (k', v') :: assocSet rest k v

/-- `Map.has` / key-membership test. -/
def assocHas {α : Type} (m : List (Str × α)) (k : Str) : Bool :=
  (assocGet m k).isSome

/-- The keys of an association list, in entry order. -/
def keysOf {α : Type} (m : List (Str × α)) : List Str :=
  m.map Prod.fst

/-- Lowercase an ASCII letter (JavaScript `toLowerCase`, restricted to the
ASCII range used by the extension checks). -/
def toLowerCh (c : Char) : Char :=
  if 'A' ≤ c ∧ c ≤ 'Z' then Char.ofNat (c.toNat + 32) else c

/-- JavaScript `str.toLowerCase()` on the ASCII range. -/
def toLowerStr (s : Str) : Str := s.map toLowerCh

/-- JavaScript `str.endsWith(suffix)`. -/
def strEndsWith (l suffix : Str) : Bool :=
  decide (l.reverse.take suffix.length = suffix.reverse)

/-- The delimiter selector value (`<select id="delimiter">`):
`auto` or one of the four manual choices. -/
inductive DelimOverride where
  | auto | tab | comma | semicolon | pipe
deriving DecidableEq

/-- The character a non-`auto` override maps to (the `delimiterMap` object in
`getDelimiter`); `auto` is mapped to the fallback tab but never used there. -/
def overrideChar : DelimOverride → Char
  | .tab => '\t'
  | .comma => ','
  | .semicolon => ';'
  | .pipe => '|'
  | .auto => '\t'

/-- The four candidate delimiters in the source's fixed priority order:
tab, comma, semicolon, pipe. -/
def delimCandidates : List Char := ['\t', ',', ';', '|']

/-- `getDelimiter(content, filename)` from the source, with the DOM-read
selector value passed explicitly: manual override wins; otherwise `.csv` /
`.tsv` extensions decide; otherwise the candidate occurring most often in
the first line wins, ties broken by priority, tab when all counts are 0. -/
def getDelimiter (content filename : Str) (sel : DelimOverride) : Char :=
  if sel ≠ DelimOverride.auto then overrideChar sel
  else
    let firstLine := (splitLines content).headI
    if strEndsWith (toLowerStr filename) (s2l ".csv") then ','
    else if strEndsWith (toLowerStr filename) (s2l ".tsv") then '\t'
    else
      let countTab := firstLine.count '\t'
      let countComma := firstLine.count ','
      let countSemi := firstLine.count ';'
      let countPipe := firstLine.count '|'
      let maxCount := max (max (max countTab countComma) countSemi) countPipe
      if maxCount = 0 then '\t'
      else if countTab = maxCount then '\t'
      else if countComma = maxCount then ','
      else if countSemi = maxCount then ';'
      else if countPipe = maxCount then '|'
      else '\t'

/-- `getDelimiterName(delimiter)`: the human-readable label. -/
def getDelimiterName (d : Char) : Str :=
  if d = '\t' then s2l "タブ"
  else if d = ',' then s2l "カンマ"
  else if d = ';' then s2l "セミコロン"
  else if d = '|' then s2l "パイプ"
  else [d]

/-- The result of a successful parse (`{ headers, rows, delimiter }`). -/
structure ParsedDataset where
  headers : List Str
  rows : List Record
  delimiter : Str
deriving DecidableEq

/-- The four parse failures thrown by `parseFile`. -/
inductive ParseErr where
  /-- 「ファイルが空です」 -/
  | emptyFile
  /-- 「ヘッダー行とデータ行が必要です」 -/
  | needHeaderAndData
  /-- 「空のヘッダーが含まれています」 -/
  | emptyHeader
  /-- 「データ行が見つかりません」 -/
  | noDataRows
deriving DecidableEq

/-- Build one record from the header list and the split field values:
`headers.forEach((header, index) => row[header] = (values[index] || '').trim())`. -/
def buildRow (headers : List Str) (values : List Str) : Record :=
  headers.enum.foldl
    (fun row p => assocSet row p.2 (trimStr (values.getD p.1 []))) []

/-- Translate one data line to a record, or `none` when the line is skipped:
blank lines are skipped, and so are rows all of whose values are empty. -/
def rowOfLine (headers : List Str) (delimiter : Char) (l : Str) :
    Option Record :=
  let line := trimStr l
  if line = [] then none
  else
    let values := splitOn delimiter line
    let row := buildRow headers values
    if row.any (fun p => p.2 ≠ []) then some row else none

/-- `parseFile(content, filename)` from the source (the variant with the
empty-header validation), with the delimiter selector passed explicitly. -/
def parseFile (content filename : Str) (sel : DelimOverride) :
    Except ParseErr ParsedDataset :=
  if trimStr content = [] then .error .emptyFile
  else
    let lines := splitLines (trimStr content)
    if lines.length < 2 then .error .needHeaderAndData
    else
      let delimiter := getDelimiter content filename sel
      let headers := (splitOn delimiter lines.headI).map trimStr
      if headers.any (fun h => h = []) then .error .emptyHeader
      else
        let rows := (lines.drop 1).filterMap (rowOfLine headers delimiter)
        if rows = [] then .error .noDataRows
        else .ok ⟨headers, rows, getDelimiterName delimiter⟩

/-- A diff entry carrying a single record (the `added`, `removed` and
`unchanged` shapes: `{ key, data, type }`). -/
structure KeyedEntry where
  key : Str
  data : Record
  type : Str
deriving DecidableEq

/-- A `changed` diff entry: `{ key, data1, data2, differences, type }`;
`differences` maps each differing column to its old and new value. -/
structure ChangedEntry where
  key : Str
  data1 : Record
  data2 : Record
  differences : List (Str × Str × Str)
  type : Str
deriving DecidableEq

/-- The derived counts (`stats`). -/
structure Stats where
  total1 : Nat
  total2 : Nat
  added : Nat
  removed : Nat
  changed : Nat
  unchanged : Nat
deriving DecidableEq

/-- The comparison result: the four classified lists plus `stats`. -/
structure ComparisonResult where
  added : List KeyedEntry
  removed : List KeyedEntry
  changed : List ChangedEntry
  unchanged : List KeyedEntry
  stats : Stats
deriving DecidableEq

/-- One step of the index-building loop: a row whose key is missing, empty
or blank after trim is skipped (`if (key && key.trim() !== '')`); otherwise
`Map.set` on the accumulated index. -/
def indexStep (keyColumn : Str) (m : List (Str × Record)) (row : Record) :
    List (Str × Record) :=
  match assocGet row keyColumn with
  | none => m
  | some key =>
    if key ≠ [] ∧ trimStr key ≠ [] then assocSet m key row else m

/-- Build a dataset's key index by iterating the rows in order
(last write wins, first insertion keeps the position). -/
def buildIndex (keyColumn : Str) (rows : List Record) :
    List (Str × Record) :=
  rows.foldl (indexStep keyColumn) []

/-- First-occurrence deduplication (JavaScript `new Set([...])` iteration
order). -/
def dedupFirst (l : List Str) : List Str :=
  l.foldl (fun acc x => if x ∈ acc then acc else acc ++ [x]) []

/-- The union of the column names of two records
(`new Set([...Object.keys(row1), ...Object.keys(row2)])`). -/
def unionColumns (row1 row2 : Record) : List Str :=
  dedupFirst (keysOf row1 ++ keysOf row2)

/-- Collect the per-column differences between two records: over the union
of their columns, compare the trimmed values (absent values default to the
empty string) and keep the differing columns with old and new value. -/
def computeDifferences (row1 row2 : Record) : List (Str × Str × Str) :=
  (unionColumns row1 row2).filterMap
    (fun column =>
      let value1 := trimStr ((assocGet row1 column).getD [])
      let value2 := trimStr ((assocGet row2 column).getD [])
      if value1 ≠ value2 then some (column, value1, value2) else none)

/-- One step of the third comparison pass (`map1.forEach` over keys present
in both maps): push a `changed` entry when some column differs, an
`unchanged` entry otherwise, and skip keys absent from `map2`. -/
def classifyStep (map2 : List (Str × Record))
    (acc : List ChangedEntry × List KeyedEntry) (p : Str × Record) :
    List ChangedEntry × List KeyedEntry :=
  match assocGet map2 p.1 with
  | none => acc
  | some row2 =>
    let differences := computeDifferences p.2 row2
    if differences ≠ [] then
      (acc.1 ++ [⟨p.1, p.2, row2, differences, s2l "changed"⟩], acc.2)
    else
      (acc.1, acc.2 ++ [⟨p.1, p.2, s2l "unchanged"⟩])

/-- `performComparison(keyColumn)` from the source, with the two datasets
passed explicitly instead of read from the global `fileData`. -/
def performComparison (d1 d2 : ParsedDataset) (keyColumn : Str) :
    ComparisonResult :=
  let map1 := buildIndex keyColumn d1.rows
  let map2 := buildIndex keyColumn d2.rows
  let added := map2.foldl
    (fun acc p =>
      if assocHas map1 p.1 then acc
      else acc ++ [⟨p.1, p.2, s2l "added"⟩]) []
  let removed := map1.foldl
    (fun acc p =>
      if assocHas map2 p.1 then acc
      else acc ++ [⟨p.1, p.2, s2l "removed"⟩]) []
  let pass := map1.foldl (classifyStep map2) ([], [])
  { added := added
    removed := removed
    changed := pass.1
    unchanged := pass.2
    stats :=
      { total1 := d1.rows.length
        total2 := d2.rows.length
        added := added.length
        removed := removed.length
        changed := pass.1.length
        unchanged := pass.2.length } }

/-- Analysis predicate: the key of `p` is present in `map2` and at least one
column of the two records differs (the condition under which the third pass
pushes a `changed` entry). -/
def changedCondition (map2 : List (Str × Record)) (p : Str × Record) : Bool :=
  match assocGet map2 p.1 with
  | none => false
  | some row2 => decide (computeDifferences p.2 row2 ≠ [])

/-- Analysis predicate: the key of `p` is present in `map2` and no column
differs (the condition under which the third pass pushes an `unchanged`
entry). -/
def unchangedCondition (map2 : List (Str × Record)) (p : Str × Record) :
    Bool :=
  match assocGet map2 p.1 with
  | none => false
  | some row2 => decide (computeDifferences p.2 row2 = [])

/-- The `changed` entry built for an index entry `p` of `map1` whose key is
also in `map2`. -/
def changedEntryOf (map2 : List (Str × Record)) (p : Str × Record) :
    ChangedEntry :=
  let row2 := (assocGet map2 p.1).getD []
  ⟨p.1, p.2, row2, computeDifferences p.2 row2, s2l "changed"⟩

/-- Rewrite a text that uses `\n` line breaks into the same text with
`\r\n` line breaks (used to state that the parser handles both forms
equivalently). -/
def expandCRLF : Str → Str
  | [] => []
  | c :: rest =>
    if c = '\n' then '\r' :: '\n' :: expandCRLF rest
    else c :: expandCRLF rest

/-- Concrete sample: dataset 1 of the spec's diff scenario
(`id,v` header, single row `1,x`). -/
def exDataset1 : ParsedDataset :=
  ⟨[s2l "id", s2l "v"], [[(s2l "id", s2l "1"), (s2l "v", s2l "x")]],
    s2l "カンマ"⟩

/-- Concrete sample: dataset 2 of the spec's diff scenario
(`id,v` header, rows `1,y` and `2,z`). -/
def exDataset2 : ParsedDataset :=
  ⟨[s2l "id", s2l "v"],
    [[(s2l "id", s2l "1"), (s2l "v", s2l "y")],
     [(s2l "id", s2l "2"), (s2l "v", s2l "z")]],
    s2l "カンマ"⟩

/-- Concrete sample: rows with a blank key and a duplicated key `1`. -/
def exDupRows : List Record :=
  [[(s2l "id", []), (s2l "v", s2l "a")],
   [(s2l "id", s2l "1"), (s2l "v", s2l "b")],
   [(s2l "id", s2l "1"), (s2l "v", s2l "c")]]

/-- Concrete sample: the dataset `parseFile "id,v\n1,x\n1,x" "a.csv"`
produces — two identical rows sharing the key `1`. -/
def exDupKeyDataset : ParsedDataset :=
  ⟨[s2l "id", s2l "v"],
    [[(s2l "id", s2l "1"), (s2l "v", s2l "x")],
     [(s2l "id", s2l "1"), (s2l "v", s2l "x")]],
    s2l "カンマ"⟩

/-- Concrete sample: the dataset `parseFile "a,b\n1,2\n\n3,4" "x.txt"`
produces (blank line elided). -/
def exParsedAB : ParsedDataset :=
  ⟨[s2l "a", s2l "b"],
    [[(s2l "a", s2l "1"), (s2l "b", s2l "2")],
     [(s2l "a", s2l "3"), (s2l "b", s2l "4")]],
    s2l "カンマ"⟩

/-- Concrete sample: the dataset `parseFile "a,a\n1,2" "x.csv"` produces —
the duplicated header collapses each record to a single entry holding the
field of the last occurrence. -/
def exDupHeaderDataset : ParsedDataset :=
  ⟨[s2l "a", s2l "a"], [[(s2l "a", s2l "2")]], s2l "カンマ"⟩

/-! ## Association-list lemmas -/

theorem assocGet_assocSet {α : Type} (m : List (Str × α)) (k k' : Str) (v : α) :
    assocGet (assocSet m k v) k' = if k = k' then some v else assocGet m k' := by
  induction m with
  | nil => by_cases h : k = k' <;> simp [assocSet, assocGet, h]
  | cons p rest ih =>
    obtain ⟨a, b⟩ := p
    by_cases hak : a = k
    · subst hak
      by_cases hk' : a = k' <;> simp [assocSet, assocGet, hk']
    · by_cases hak' : a = k'
      · subst hak'
        have : ¬ k = a := fun h => hak h.symm
        simp [assocSet, assocGet, hak, this]
      · simp [assocSet, assocGet, hak, hak', ih]

theorem keysOf_nil {α : Type} : keysOf ([] : List (Str × α)) = [] := rfl

theorem keysOf_cons {α : Type} (p : Str × α) (rest : List (Str × α)) :
    keysOf (p :: rest) = p.1 :: keysOf rest := rfl

theorem keysOf_assocSet {α : Type} (m : List (Str × α)) (k : Str) (v : α) :
    keysOf (assocSet m k v) =
      if k ∈ keysOf m then keysOf m else keysOf m ++ [k] := by
  induction m with
  | nil => simp [assocSet, keysOf_cons, keysOf_nil]
  | cons p rest ih =>
    obtain ⟨a, b⟩ := p
    by_cases hak : a = k
    · subst hak
      simp [assocSet, keysOf_cons]
    · have hka : ¬ k = a := fun h => hak h.symm
      by_cases hmem : k ∈ keysOf rest
      · rw [if_pos hmem] at ih
        simp only [assocSet, if_neg hak, keysOf_cons, ih,
          List.mem_cons, hka, false_or, if_pos hmem]
      · rw [if_neg hmem] at ih
        have hnot : ¬ (k ∈ a :: keysOf rest) := by
          simp [hka, hmem]
        simp only [assocSet, if_neg hak, keysOf_cons, ih, if_neg hnot,
          List.cons_append]

theorem assocGet_eq_none_iff {α : Type} (m : List (Str × α)) (k : Str) :
    assocGet m k = none ↔ k ∉ keysOf m := by
  induction m with
  | nil => simp [assocGet, keysOf_nil]
  | cons p rest ih =>
    obtain ⟨a, b⟩ := p
    by_cases hak : a = k
    · subst hak
      simp [assocGet, keysOf_cons]
    · have hka : ¬ k = a := fun h => hak h.symm
      simp [assocGet, keysOf_cons, hak, hka, ih]

theorem assocGet_isSome_iff {α : Type} (m : List (Str × α)) (k : Str) :
    (assocGet m k).isSome = true ↔ k ∈ keysOf m := by
  rcases h : assocGet m k with _ | v
  · simpa using (assocGet_eq_none_iff m k).mp h
  · simp only [Option.isSome_some, true_iff]
    by_contra hmem
    rw [← assocGet_eq_none_iff] at hmem
    rw [h] at hmem
    exact Option.noConfusion hmem

theorem assocHas_iff {α : Type} (m : List (Str × α)) (k : Str) :
    assocHas m k = true ↔ k ∈ keysOf m := by
  unfold assocHas
  exact assocGet_isSome_iff m k

theorem assocGet_mem {α : Type} {m : List (Str × α)} {k : Str} {v : α}
    (h : assocGet m k = some v) : (k, v) ∈ m := by
  induction m with
  | nil => simp [assocGet] at h
  | cons p rest ih =>
    obtain ⟨a, b⟩ := p
    by_cases hak : a = k
    · subst hak
      simp [assocGet] at h
      simp [h]
    · simp [assocGet, hak] at h
      simp [ih h]

/-! ## Fold lemmas and the shape of the comparison passes -/

theorem foldl_skip_push {α β : Type} (p : α → Bool) (f : α → β) :
    ∀ (l : List α) (acc : List β),
      l.foldl (fun a x => if p x then a else a ++ [f x]) acc
        = acc ++ (l.filter (fun x => !p x)).map f := by
  intro l
  induction l with
  | nil => intro acc; simp
  | cons x xs ih =>
    intro acc
    by_cases h : p x
    · simp [List.foldl_cons, h, ih]
    · simp [List.foldl_cons, h, ih]

theorem classify_foldl (map2 : List (Str × Record)) :
    ∀ (l : List (Str × Record))
      (c0 : List ChangedEntry) (u0 : List KeyedEntry),
      l.foldl (classifyStep map2) (c0, u0)
        = (c0 ++ (l.filter (changedCondition map2)).map (changedEntryOf map2),
           u0 ++ (l.filter (unchangedCondition map2)).map
             (fun p => ⟨p.1, p.2, s2l "unchanged"⟩)) := by
  intro l
  induction l with
  | nil => intro c0 u0; simp
  | cons x xs ih =>
    intro c0 u0
    rcases hq : assocGet map2 x.1 with _ | row2
    · have hstep : classifyStep map2 (c0, u0) x = (c0, u0) := by
        simp [classifyStep, hq]
      have hc : changedCondition map2 x = false := by
        simp [changedCondition, hq]
      have hu : unchangedCondition map2 x = false := by
        simp [unchangedCondition, hq]
      simp [List.foldl_cons, hstep, ih, List.filter_cons, hc, hu]
    · by_cases hd : computeDifferences x.2 row2 = []
      · have hstep : classifyStep map2 (c0, u0) x
            = (c0, u0 ++ [⟨x.1, x.2, s2l "unchanged"⟩]) := by
          simp [classifyStep, hq, hd]
        have hc : changedCondition map2 x = false := by
          simp [changedCondition, hq, hd]
        have hu : unchangedCondition map2 x = true := by
          simp [unchangedCondition, hq, hd]
        simp [List.foldl_cons, hstep, ih, List.filter_cons, hc, hu]
      · have hstep : classifyStep map2 (c0, u0) x
            = (c0 ++ [changedEntryOf map2 x], u0) := by
          simp [classifyStep, hq, hd, changedEntryOf]
        have hc : changedCondition map2 x = true := by
          simp [changedCondition, hq, hd]
        have hu : unchangedCondition map2 x = false := by
          simp [unchangedCondition, hq, hd]
        simp [List.foldl_cons, hstep, ih, List.filter_cons, hc, hu]

theorem performComparison_added (d1 d2 : ParsedDataset) (kc : Str) :
    (performComparison d1 d2 kc).added
      = ((buildIndex kc d2.rows).filter
          (fun p => !assocHas (buildIndex kc d1.rows) p.1)).map
        (fun p => ⟨p.1, p.2, s2l "added"⟩) := by
  unfold performComparison
  simp only []
  simpa using foldl_skip_push
    (fun p : Str × Record => assocHas (buildIndex kc d1.rows) p.1)
    (fun p => (⟨p.1, p.2, s2l "added"⟩ : KeyedEntry))
    (buildIndex kc d2.rows) []

theorem performComparison_removed (d1 d2 : ParsedDataset) (kc : Str) :
    (performComparison d1 d2 kc).removed
      = ((buildIndex kc d1.rows).filter
          (fun p => !assocHas (buildIndex kc d2.rows) p.1)).map
        (fun p => ⟨p.1, p.2, s2l "removed"⟩) := by
  unfold performComparison
  simp only []
  simpa using foldl_skip_push
    (fun p : Str × Record => assocHas (buildIndex kc d2.rows) p.1)
    (fun p => (⟨p.1, p.2, s2l "removed"⟩ : KeyedEntry))
    (buildIndex kc d1.rows) []

theorem performComparison_changed (d1 d2 : ParsedDataset) (kc : Str) :
    (performComparison d1 d2 kc).changed
      = ((buildIndex kc d1.rows).filter
          (changedCondition (buildIndex kc d2.rows))).map
        (changedEntryOf (buildIndex kc d2.rows)) := by
  unfold performComparison
  simp only []
  rw [classify_foldl]
  simp

theorem performComparison_unchanged (d1 d2 : ParsedDataset) (kc : Str) :
    (performComparison d1 d2 kc).unchanged
      = ((buildIndex kc d1.rows).filter
          (unchangedCondition (buildIndex kc d2.rows))).map
        (fun p => ⟨p.1, p.2, s2l "unchanged"⟩) := by
  unfold performComparison
  simp only []
  rw [classify_foldl]
  simp

/-! ## Key-index lemmas -/

theorem mem_keysOf_assocSet {α : Type} (m : List (Str × α)) (k k' : Str)
    (v : α) : k' ∈ keysOf (assocSet m k v) ↔ k' ∈ keysOf m ∨ k' = k := by
  rw [keysOf_assocSet]
  by_cases hmem : k ∈ keysOf m
  · rw [if_pos hmem]
    constructor
    · exact fun h => Or.inl h
    · rintro (h | h)
      · exact h
      · exact h ▸ hmem
  · rw [if_neg hmem]
    simp

theorem nodup_keysOf_assocSet {α : Type} (m : List (Str × α)) (k : Str)
    (v : α) (h : (keysOf m).Nodup) : (keysOf (assocSet m k v)).Nodup := by
  rw [keysOf_assocSet]
  by_cases hmem : k ∈ keysOf m
  · rwa [if_pos hmem]
  · rw [if_neg hmem]
    simp [List.nodup_append, h, hmem]

theorem assocGet_of_mem_nodup {α : Type} {m : List (Str × α)} {k : Str}
    {v : α} (hmem : (k, v) ∈ m) (hnd : (keysOf m).Nodup) :
    assocGet m k = some v := by
  induction m with
  | nil => simp at hmem
  | cons p rest ih =>
    obtain ⟨a, b⟩ := p
    rw [keysOf_cons] at hnd
    rcases List.mem_cons.mp hmem with h | h
    · rw [Prod.mk.injEq] at h
      obtain ⟨h1, h2⟩ := h
      subst h1
      subst h2
      show (if k = k then some v else assocGet rest k) = some v
      rw [if_pos rfl]
    · have hak : a ≠ k := by
        intro he
        subst he
        have : (a, v).1 ∈ rest.map Prod.fst := List.mem_map_of_mem Prod.fst h
        exact (List.nodup_cons.mp hnd).1 this
      show (if a = k then some b else assocGet rest k) = some v
      rw [if_neg hak]
      exact ih h (List.nodup_cons.mp hnd).2

theorem getLast?_cons_or {α : Type} (x : α) (l : List α) :
    (x :: l).getLast? = l.getLast?.or (some x) := by
  cases l with
  | nil => simp
  | cons y ys =>
    rw [List.getLast?_cons_cons]
    rcases h : (y :: ys).getLast? with _ | z
    · exact absurd (List.getLast?_eq_none_iff.mp h) (by simp)
    · simp

theorem indexFold_get_none (kc k : Str) (hk : trimStr k = []) :
    ∀ (rows : List Record) (m : List (Str × Record)),
      assocGet m k = none →
      assocGet (rows.foldl (indexStep kc) m) k = none := by
  intro rows
  induction rows with
  | nil => intro m hm; simpa using hm
  | cons r rs ih =>
    intro m hm
    rw [List.foldl_cons]
    apply ih
    rcases hq : assocGet r kc with _ | key
    · simpa [indexStep, hq] using hm
    · by_cases hcond : key ≠ [] ∧ trimStr key ≠ []
      · have hkk : key ≠ k := fun he => hcond.2 (he ▸ hk)
        simp only [indexStep, hq, if_pos hcond]
        rw [assocGet_assocSet, if_neg hkk]
        exact hm
      · simpa [indexStep, hq, if_neg hcond] using hm

theorem buildIndex_get_blank (kc k : Str) (rows : List Record)
    (hk : trimStr k = []) :
    assocGet (buildIndex kc rows) k = none :=
  indexFold_get_none kc k hk rows [] rfl

theorem indexFold_get_valid (kc k : Str) (hk : trimStr k ≠ []) :
    ∀ (rows : List Record) (m : List (Str × Record)),
      assocGet (rows.foldl (indexStep kc) m) k
        = ((rows.filter
            (fun r => decide (assocGet r kc = some k))).getLast?).or
            (assocGet m k) := by
  intro rows
  induction rows with
  | nil => intro m; simp
  | cons r rs ih =>
    intro m
    rw [List.foldl_cons, ih, List.filter_cons]
    by_cases hp : assocGet r kc = some k
    · have hkne : k ≠ [] := by
        intro he
        exact hk (by rw [he]; rfl)
      have hstep : indexStep kc m r = assocSet m k r := by
        simp only [indexStep, hp, if_pos (And.intro hkne hk)]
      rw [hstep]
      have hget : assocGet (assocSet m k r) k = some r := by
        rw [assocGet_assocSet, if_pos rfl]
      rw [hget]
      simp only [hp, decide_eq_true_eq, if_true]
      rw [getLast?_cons_or]
      rcases hlast : (rs.filter
          (fun r => decide (assocGet r kc = some k))).getLast? with _ | z
      · simp
      · simp
    · have hstep : assocGet (indexStep kc m r) k = assocGet m k := by
        rcases hq : assocGet r kc with _ | key
        · simp [indexStep, hq]
        · have hkk : key ≠ k := fun he => hp (he ▸ hq)
          by_cases hcond : key ≠ [] ∧ trimStr key ≠ []
          · simp only [indexStep, hq, if_pos hcond]
            rw [assocGet_assocSet, if_neg hkk]
          · simp [indexStep, hq, if_neg hcond]
      rw [hstep]
      have : ¬ (decide (assocGet r kc = some k) = true) := by simp [hp]
      rw [if_neg this]

theorem buildIndex_get_valid (kc k : Str) (rows : List Record)
    (hk : trimStr k ≠ []) :
    assocGet (buildIndex kc rows) k
      = (rows.filter (fun r => decide (assocGet r kc = some k))).getLast? := by
  unfold buildIndex
  rw [indexFold_get_valid kc k hk rows []]
  simp [assocGet]

theorem indexFold_mem_keys (kc k : Str) :
    ∀ (rows : List Record) (m : List (Str × Record)),
      k ∈ keysOf (rows.foldl (indexStep kc) m)
        ↔ k ∈ keysOf m
          ∨ ∃ row ∈ rows,
              assocGet row kc = some k ∧ k ≠ [] ∧ trimStr k ≠ [] := by
  intro rows
  induction rows with
  | nil => intro m; simp
  | cons r rs ih =>
    intro m
    rw [List.foldl_cons, ih]
    have hstep : k ∈ keysOf (indexStep kc m r)
        ↔ k ∈ keysOf m
          ∨ (assocGet r kc = some k ∧ k ≠ [] ∧ trimStr k ≠ []) := by
      rcases hq : assocGet r kc with _ | key
      · simp [indexStep, hq]
      · by_cases hcond : key ≠ [] ∧ trimStr key ≠ []
        · simp only [indexStep, hq, if_pos hcond, mem_keysOf_assocSet]
          constructor
          · rintro (h | h)
            · exact Or.inl h
            · exact Or.inr ⟨h ▸ rfl, h ▸ hcond.1, h ▸ hcond.2⟩
          · rintro (h | ⟨h1, _, _⟩)
            · exact Or.inl h
            · injection h1 with h1
              exact Or.inr h1.symm
        · simp only [indexStep, hq, if_neg hcond]
          constructor
          · exact fun h => Or.inl h
          · rintro (h | ⟨h1, h2, h3⟩)
            · exact h
            · injection h1 with h1
              subst h1
              exact absurd ⟨h2, h3⟩ hcond
    rw [hstep]
    constructor
    · rintro ((h | h) | ⟨row, hrow, hprops⟩)
      · exact Or.inl h
      · exact Or.inr ⟨r, List.mem_cons_self r rs, h⟩
      · exact Or.inr ⟨row, List.mem_cons_of_mem r hrow, hprops⟩
    · rintro (h | ⟨row, hrow, hprops⟩)
      · exact Or.inl (Or.inl h)
      · rcases List.mem_cons.mp hrow with he | hm2
        · exact Or.inl (Or.inr (he ▸ hprops))
        · exact Or.inr ⟨row, hm2, hprops⟩

theorem buildIndex_mem_keys (kc k : Str) (rows : List Record) :
    k ∈ keysOf (buildIndex kc rows)
      ↔ ∃ row ∈ rows,
          assocGet row kc = some k ∧ k ≠ [] ∧ trimStr k ≠ [] := by
  unfold buildIndex
  rw [indexFold_mem_keys]
  simp [keysOf]

theorem indexFold_nodup (kc : Str) :
    ∀ (rows : List Record) (m : List (Str × Record)),
      (keysOf m).Nodup → (keysOf (rows.foldl (indexStep kc) m)).Nodup := by
  intro rows
  induction rows with
  | nil => intro m h; simpa using h
  | cons r rs ih =>
    intro m h
    rw [List.foldl_cons]
    apply ih
    rcases hq : assocGet r kc with _ | key
    · simpa [indexStep, hq] using h
    · by_cases hcond : key ≠ [] ∧ trimStr key ≠ []
      · simp only [indexStep, hq, if_pos hcond]
        exact nodup_keysOf_assocSet m key r h
      · simpa [indexStep, hq, if_neg hcond] using h

theorem buildIndex_nodup (kc : Str) (rows : List Record) :
    (keysOf (buildIndex kc rows)).Nodup :=
  indexFold_nodup kc rows [] List.nodup_nil

/-! ## Column-union and difference-map lemmas -/

theorem mem_dedupFold (l : List Str) :
    ∀ (acc : List Str) (x : Str),
      x ∈ l.foldl (fun acc y => if y ∈ acc then acc else acc ++ [y]) acc
        ↔ x ∈ acc ∨ x ∈ l := by
  induction l with
  | nil => intro acc x; simp
  | cons y ys ih =>
    intro acc x
    rw [List.foldl_cons, ih]
    by_cases hy : y ∈ acc
    · rw [if_pos hy]
      constructor
      · rintro (h | h)
        · exact Or.inl h
        · simp [h]
      · rintro (h | h)
        · exact Or.inl h
        · rcases List.mem_cons.mp h with he | hm
          · exact Or.inl (he ▸ hy)
          · exact Or.inr hm
    · rw [if_neg hy]
      constructor
      · rintro (h | h)
        · rcases List.mem_append.mp h with hm | hm
          · exact Or.inl hm
          · simp at hm
            simp [hm]
        · simp [h]
      · rintro (h | h)
        · exact Or.inl (List.mem_append.mpr (Or.inl h))
        · rcases List.mem_cons.mp h with he | hm
          · exact Or.inl (List.mem_append.mpr (Or.inr (by simp [he])))
          · exact Or.inr hm

theorem mem_dedupFirst (l : List Str) (x : Str) :
    x ∈ dedupFirst l ↔ x ∈ l := by
  unfold dedupFirst
  rw [mem_dedupFold]
  simp

theorem mem_unionColumns (r1 r2 : Record) (c : Str) :
    c ∈ unionColumns r1 r2 ↔ c ∈ keysOf r1 ∨ c ∈ keysOf r2 := by
  unfold unionColumns
  rw [mem_dedupFirst, List.mem_append]

theorem mem_computeDifferences (r1 r2 : Record) (c o n : Str) :
    (c, o, n) ∈ computeDifferences r1 r2
      ↔ (c ∈ keysOf r1 ∨ c ∈ keysOf r2)
        ∧ o = trimStr ((assocGet r1 c).getD [])
        ∧ n = trimStr ((assocGet r2 c).getD [])
        ∧ o ≠ n := by
  unfold computeDifferences
  rw [List.mem_filterMap]
  constructor
  · rintro ⟨a, ha, heq⟩
    by_cases hne : trimStr ((assocGet r1 a).getD [])
        ≠ trimStr ((assocGet r2 a).getD [])
    · rw [if_pos hne] at heq
      rw [Option.some.injEq, Prod.mk.injEq, Prod.mk.injEq] at heq
      obtain ⟨h1, h2, h3⟩ := heq
      subst h1
      subst h2
      subst h3
      exact ⟨(mem_unionColumns r1 r2 a).mp ha, rfl, rfl, hne⟩
    · rw [if_neg hne] at heq
      exact Option.noConfusion heq
  · rintro ⟨hmem, ho, hn, hne⟩
    refine ⟨c, (mem_unionColumns r1 r2 c).mpr hmem, ?_⟩
    subst ho
    subst hn
    rw [if_pos hne]

theorem computeDifferences_self (r : Record) :
    computeDifferences r r = [] := by
  unfold computeDifferences
  rw [List.filterMap_eq_nil_iff]
  intro a _
  simp

/-! ## Classification membership lemmas -/

theorem assocHas_eq_false_iff {α : Type} (m : List (Str × α)) (k : Str) :
    assocHas m k = false ↔ k ∉ keysOf m := by
  rw [← Bool.not_eq_true, assocHas_iff]

theorem mem_added_keys_iff (d1 d2 : ParsedDataset) (kc k : Str) :
    (∃ e ∈ (performComparison d1 d2 kc).added, e.key = k)
      ↔ k ∈ keysOf (buildIndex kc d2.rows)
        ∧ k ∉ keysOf (buildIndex kc d1.rows) := by
  rw [performComparison_added]
  constructor
  · rintro ⟨e, he, hk⟩
    rcases List.mem_map.mp he with ⟨p, hp, rfl⟩
    rcases List.mem_filter.mp hp with ⟨hpm, hcond⟩
    obtain rfl : p.1 = k := hk
    have hmem : p.1 ∈ keysOf (buildIndex kc d2.rows) :=
      List.mem_map_of_mem Prod.fst hpm
    have hnot : assocHas (buildIndex kc d1.rows) p.1 = false := by
      simpa using hcond
    exact ⟨hmem, (assocHas_eq_false_iff _ _).mp hnot⟩
  · rintro ⟨hin2, hnot1⟩
    rcases List.mem_map.mp hin2 with ⟨p, hpm, hpk⟩
    refine ⟨⟨p.1, p.2, s2l "added"⟩, ?_, hpk⟩
    apply List.mem_map.mpr
    refine ⟨p, List.mem_filter.mpr ⟨hpm, ?_⟩, rfl⟩
    have : assocHas (buildIndex kc d1.rows) p.1 = false := by
      rw [assocHas_eq_false_iff, hpk]
      exact hnot1
    simp [this]

theorem mem_removed_keys_iff (d1 d2 : ParsedDataset) (kc k : Str) :
    (∃ e ∈ (performComparison d1 d2 kc).removed, e.key = k)
      ↔ k ∈ keysOf (buildIndex kc d1.rows)
        ∧ k ∉ keysOf (buildIndex kc d2.rows) := by
  rw [performComparison_removed]
  constructor
  · rintro ⟨e, he, hk⟩
    rcases List.mem_map.mp he with ⟨p, hp, rfl⟩
    rcases List.mem_filter.mp hp with ⟨hpm, hcond⟩
    obtain rfl : p.1 = k := hk
    have hmem : p.1 ∈ keysOf (buildIndex kc d1.rows) :=
      List.mem_map_of_mem Prod.fst hpm
    have hnot : assocHas (buildIndex kc d2.rows) p.1 = false := by
      simpa using hcond
    exact ⟨hmem, (assocHas_eq_false_iff _ _).mp hnot⟩
  · rintro ⟨hin1, hnot2⟩
    rcases List.mem_map.mp hin1 with ⟨p, hpm, hpk⟩
    refine ⟨⟨p.1, p.2, s2l "removed"⟩, ?_, hpk⟩
    apply List.mem_map.mpr
    refine ⟨p, List.mem_filter.mpr ⟨hpm, ?_⟩, rfl⟩
    have : assocHas (buildIndex kc d2.rows) p.1 = false := by
      rw [assocHas_eq_false_iff, hpk]
      exact hnot2
    simp [this]

theorem mem_changed_keys_iff (d1 d2 : ParsedDataset) (kc k : Str) :
    (∃ e ∈ (performComparison d1 d2 kc).changed, e.key = k)
      ↔ ∃ row1 row2,
          assocGet (buildIndex kc d1.rows) k = some row1
          ∧ assocGet (buildIndex kc d2.rows) k = some row2
          ∧ computeDifferences row1 row2 ≠ [] := by
  rw [performComparison_changed]
  constructor
  · rintro ⟨e, he, hk⟩
    rcases List.mem_map.mp he with ⟨p, hp, rfl⟩
    rcases List.mem_filter.mp hp with ⟨hpm, hcond⟩
    obtain rfl : p.1 = k := hk
    have hget1 : assocGet (buildIndex kc d1.rows) p.1 = some p.2 := by
      have : (p.1, p.2) ∈ buildIndex kc d1.rows := by
        simpa using hpm
      exact assocGet_of_mem_nodup this (buildIndex_nodup kc d1.rows)
    unfold changedCondition at hcond
    rcases hq : assocGet (buildIndex kc d2.rows) p.1 with _ | row2
    · rw [hq] at hcond
      simp at hcond
    · rw [hq] at hcond
      simp only [decide_eq_true_eq] at hcond
      exact ⟨p.2, row2, hget1, rfl, hcond⟩
  · rintro ⟨row1, row2, h1, h2, hne⟩
    have hpm : (k, row1) ∈ buildIndex kc d1.rows := assocGet_mem h1
    refine ⟨changedEntryOf (buildIndex kc d2.rows) (k, row1), ?_, rfl⟩
    apply List.mem_map.mpr
    refine ⟨(k, row1), List.mem_filter.mpr ⟨hpm, ?_⟩, rfl⟩
    unfold changedCondition
    rw [h2]
    simpa using hne

theorem mem_unchanged_keys_iff (d1 d2 : ParsedDataset) (kc k : Str) :
    (∃ e ∈ (performComparison d1 d2 kc).unchanged, e.key = k)
      ↔ ∃ row1 row2,
          assocGet (buildIndex kc d1.rows) k = some row1
          ∧ assocGet (buildIndex kc d2.rows) k = some row2
          ∧ computeDifferences row1 row2 = [] := by
  rw [performComparison_unchanged]
  constructor
  · rintro ⟨e, he, hk⟩
    rcases List.mem_map.mp he with ⟨p, hp, rfl⟩
    rcases List.mem_filter.mp hp with ⟨hpm, hcond⟩
    obtain rfl : p.1 = k := hk
    have hget1 : assocGet (buildIndex kc d1.rows) p.1 = some p.2 := by
      have : (p.1, p.2) ∈ buildIndex kc d1.rows := by
        simpa using hpm
      exact assocGet_of_mem_nodup this (buildIndex_nodup kc d1.rows)
    unfold unchangedCondition at hcond
    rcases hq : assocGet (buildIndex kc d2.rows) p.1 with _ | row2
    · rw [hq] at hcond
      simp at hcond
    · rw [hq] at hcond
      simp only [decide_eq_true_eq] at hcond
      exact ⟨p.2, row2, hget1, rfl, hcond⟩
  · rintro ⟨row1, row2, h1, h2, heq⟩
    have hpm : (k, row1) ∈ buildIndex kc d1.rows := assocGet_mem h1
    refine ⟨⟨k, row1, s2l "unchanged"⟩, ?_, rfl⟩
    apply List.mem_map.mpr
    refine ⟨(k, row1), List.mem_filter.mpr ⟨hpm, ?_⟩, rfl⟩
    unfold unchangedCondition
    rw [h2]
    simpa using heq

/-! ## Claim C1 and C8 -/

/-- Claim C1: every key appearing in at least one of the two indices is
classified into exactly one kind: `added` holds exactly the keys of index 2
absent from index 1, in index 2's iteration order; `removed` exactly the
keys of index 1 absent from index 2, in index 1's order; keys present in
both go to `changed` or `unchanged` (never both), both lists following
index 1's iteration order. -/
theorem c1_every_key_classified_once (d1 d2 : ParsedDataset) (kc : Str) :
    (performComparison d1 d2 kc).added
      = ((buildIndex kc d2.rows).filter
          (fun p => !assocHas (buildIndex kc d1.rows) p.1)).map
        (fun p => ⟨p.1, p.2, s2l "added"⟩)
    ∧ (performComparison d1 d2 kc).removed
      = ((buildIndex kc d1.rows).filter
          (fun p => !assocHas (buildIndex kc d2.rows) p.1)).map
        (fun p => ⟨p.1, p.2, s2l "removed"⟩)
    ∧ (performComparison d1 d2 kc).changed
      = ((buildIndex kc d1.rows).filter
          (changedCondition (buildIndex kc d2.rows))).map
        (changedEntryOf (buildIndex kc d2.rows))
    ∧ (performComparison d1 d2 kc).unchanged
      = ((buildIndex kc d1.rows).filter
          (unchangedCondition (buildIndex kc d2.rows))).map
        (fun p => ⟨p.1, p.2, s2l "unchanged"⟩)
    ∧ ∀ k,
        ((∃ e ∈ (performComparison d1 d2 kc).added, e.key = k)
          ↔ k ∈ keysOf (buildIndex kc d2.rows)
            ∧ k ∉ keysOf (buildIndex kc d1.rows))
        ∧ ((∃ e ∈ (performComparison d1 d2 kc).removed, e.key = k)
          ↔ k ∈ keysOf (buildIndex kc d1.rows)
            ∧ k ∉ keysOf (buildIndex kc d2.rows))
        ∧ (((∃ e ∈ (performComparison d1 d2 kc).changed, e.key = k)
            ∨ (∃ e ∈ (performComparison d1 d2 kc).unchanged, e.key = k))
          ↔ k ∈ keysOf (buildIndex kc d1.rows)
            ∧ k ∈ keysOf (buildIndex kc d2.rows))
        ∧ ¬((∃ e ∈ (performComparison d1 d2 kc).changed, e.key = k)
            ∧ (∃ e ∈ (performComparison d1 d2 kc).unchanged, e.key = k)) := by
  refine ⟨performComparison_added d1 d2 kc, performComparison_removed d1 d2 kc,
    performComparison_changed d1 d2 kc, performComparison_unchanged d1 d2 kc,
    ?_⟩
  intro k
  refine ⟨mem_added_keys_iff d1 d2 kc k, mem_removed_keys_iff d1 d2 kc k,
    ?_, ?_⟩
  · rw [mem_changed_keys_iff, mem_unchanged_keys_iff]
    constructor
    · rintro (⟨r1, r2, h1, h2, _⟩ | ⟨r1, r2, h1, h2, _⟩) <;>
        exact ⟨(assocGet_isSome_iff _ _).mp (by simp [h1]),
          (assocGet_isSome_iff _ _).mp (by simp [h2])⟩
    · rintro ⟨hk1, hk2⟩
      obtain ⟨r1, h1⟩ :=
        Option.isSome_iff_exists.mp ((assocGet_isSome_iff _ _).mpr hk1)
      obtain ⟨r2, h2⟩ :=
        Option.isSome_iff_exists.mp ((assocGet_isSome_iff _ _).mpr hk2)
      by_cases hd : computeDifferences r1 r2 = []
      · exact Or.inr ⟨r1, r2, h1, h2, hd⟩
      · exact Or.inl ⟨r1, r2, h1, h2, hd⟩
  · rw [mem_changed_keys_iff, mem_unchanged_keys_iff]
    rintro ⟨⟨r1, r2, h1, h2, hne⟩, ⟨r1', r2', h1', h2', heq⟩⟩
    rw [h1] at h1'
    rw [h2] at h2'
    injection h1' with h1'
    injection h2' with h2'
    subst h1'
    subst h2'
    exact hne heq

/-- Claim C8: in every comparison result, `stats.total1` and `stats.total2`
are the raw row counts of the two input datasets, and the other four
counters are the lengths of the four classified lists. -/
theorem c8_stats_are_derived_counts (d1 d2 : ParsedDataset) (kc : Str) :
    (performComparison d1 d2 kc).stats.total1 = d1.rows.length
    ∧ (performComparison d1 d2 kc).stats.total2 = d2.rows.length
    ∧ (performComparison d1 d2 kc).stats.added
        = (performComparison d1 d2 kc).added.length
    ∧ (performComparison d1 d2 kc).stats.removed
        = (performComparison d1 d2 kc).removed.length
    ∧ (performComparison d1 d2 kc).stats.changed
        = (performComparison d1 d2 kc).changed.length
    ∧ (performComparison d1 d2 kc).stats.unchanged
        = (performComparison d1 d2 kc).unchanged.length :=
  ⟨rfl, rfl, rfl, rfl, rfl, rfl⟩

/-! ## Claim C2 -/

theorem computeDifferences_ne_nil_iff (r1 r2 : Record) :
    computeDifferences r1 r2 ≠ []
      ↔ ∃ c, (c ∈ keysOf r1 ∨ c ∈ keysOf r2)
          ∧ trimStr ((assocGet r1 c).getD [])
            ≠ trimStr ((assocGet r2 c).getD []) := by
  constructor
  · intro h
    rcases List.exists_mem_of_ne_nil _ h with ⟨⟨c, o, n⟩, hmem⟩
    rcases (mem_computeDifferences r1 r2 c o n).mp hmem with ⟨hc, ho, hn, hne⟩
    refine ⟨c, hc, ?_⟩
    rw [← ho, ← hn]
    exact hne
  · rintro ⟨c, hc, hne⟩
    intro hnil
    have hmem : (c, trimStr ((assocGet r1 c).getD []),
        trimStr ((assocGet r2 c).getD [])) ∈ computeDifferences r1 r2 :=
      (mem_computeDifferences r1 r2 c _ _).mpr ⟨hc, rfl, rfl, hne⟩
    rw [hnil] at hmem
    simp at hmem

/-- Claim C2: for every key present in both indices, the engine compares
the union of the two records' columns by exact string equality after trim
(absent values defaulting to the empty string); when some column differs,
a `changed` entry with a differences map holding exactly the differing
columns (old value from dataset 1, new from dataset 2) is produced and the
key is not listed as unchanged; otherwise an `unchanged` entry is produced
and the key is not listed as changed. -/
theorem c2_union_columns_trimmed_equality (d1 d2 : ParsedDataset)
    (kc k : Str) (row1 row2 : Record)
    (h1 : assocGet (buildIndex kc d1.rows) k = some row1)
    (h2 : assocGet (buildIndex kc d2.rows) k = some row2) :
    ((∃ c, (c ∈ keysOf row1 ∨ c ∈ keysOf row2)
        ∧ trimStr ((assocGet row1 c).getD [])
          ≠ trimStr ((assocGet row2 c).getD [])) →
      (⟨k, row1, row2, computeDifferences row1 row2, s2l "changed"⟩
          : ChangedEntry) ∈ (performComparison d1 d2 kc).changed
      ∧ ∀ e ∈ (performComparison d1 d2 kc).unchanged, e.key ≠ k)
    ∧ ((∀ c, (c ∈ keysOf row1 ∨ c ∈ keysOf row2) →
        trimStr ((assocGet row1 c).getD [])
          = trimStr ((assocGet row2 c).getD [])) →
      (⟨k, row1, s2l "unchanged"⟩ : KeyedEntry)
          ∈ (performComparison d1 d2 kc).unchanged
      ∧ ∀ e ∈ (performComparison d1 d2 kc).changed, e.key ≠ k)
    ∧ (∀ c o n, (c, o, n) ∈ computeDifferences row1 row2
        ↔ (c ∈ keysOf row1 ∨ c ∈ keysOf row2)
          ∧ o = trimStr ((assocGet row1 c).getD [])
          ∧ n = trimStr ((assocGet row2 c).getD [])
          ∧ o ≠ n) := by
  refine ⟨?_, ?_, mem_computeDifferences row1 row2⟩
  · intro hex
    have hne : computeDifferences row1 row2 ≠ [] :=
      (computeDifferences_ne_nil_iff row1 row2).mpr hex
    constructor
    · rw [performComparison_changed]
      apply List.mem_map.mpr
      refine ⟨(k, row1), List.mem_filter.mpr ⟨assocGet_mem h1, ?_⟩, ?_⟩
      · unfold changedCondition
        rw [h2]
        simpa using hne
      · unfold changedEntryOf
        rw [h2]
        rfl
    · intro e he hek
      rcases (mem_unchanged_keys_iff d1 d2 kc k).mp ⟨e, he, hek⟩
        with ⟨r1', r2', h1', h2', heq⟩
      rw [h1] at h1'
      rw [h2] at h2'
      injection h1' with h1'
      injection h2' with h2'
      subst h1'
      subst h2'
      exact hne heq
  · intro hall
    have heq : computeDifferences row1 row2 = [] := by
      by_contra hne
      rcases (computeDifferences_ne_nil_iff row1 row2).mp hne
        with ⟨c, hc, hcne⟩
      exact hcne (hall c hc)
    constructor
    · rw [performComparison_unchanged]
      apply List.mem_map.mpr
      refine ⟨(k, row1), List.mem_filter.mpr ⟨assocGet_mem h1, ?_⟩, rfl⟩
      unfold unchangedCondition
      rw [h2]
      simpa using heq
    · intro e he hek
      rcases (mem_changed_keys_iff d1 d2 kc k).mp ⟨e, he, hek⟩
        with ⟨r1', r2', h1', h2', hne⟩
      rw [h1] at h1'
      rw [h2] at h2'
      injection h1' with h1'
      injection h2' with h2'
      subst h1'
      subst h2'
      exact hne heq

/-- Witness for C2 at the spec's diff scenario: key `1` is present in both
indices, column `v` differs (`x` vs `y`), and the corresponding `changed`
entry is produced. -/
theorem c2_union_columns_trimmed_equality_witness :
    (⟨s2l "1", [(s2l "id", s2l "1"), (s2l "v", s2l "x")],
        [(s2l "id", s2l "1"), (s2l "v", s2l "y")],
        computeDifferences [(s2l "id", s2l "1"), (s2l "v", s2l "x")]
          [(s2l "id", s2l "1"), (s2l "v", s2l "y")],
        s2l "changed"⟩ : ChangedEntry)
      ∈ (performComparison exDataset1 exDataset2 (s2l "id")).changed := by
  have h := c2_union_columns_trimmed_equality exDataset1 exDataset2
    (s2l "id") (s2l "1")
    [(s2l "id", s2l "1"), (s2l "v", s2l "x")]
    [(s2l "id", s2l "1"), (s2l "v", s2l "y")]
    (by decide) (by decide)
  exact (h.1 ⟨s2l "v", by decide, by decide⟩).1

/-! ## Claim C3 -/

/-- Claim C3: a key that is empty or blank after trimming is never entered
into an index (and so appears in none of the four classified lists), and
for a valid key the index holds exactly the last row of the dataset
carrying that key (later rows silently overwrite earlier ones); index
building is a total function, so no exception is raised. -/
theorem c3_blank_excluded_and_last_write_wins (kc k : Str)
    (d1 d2 : ParsedDataset) :
    (trimStr k = [] →
      assocGet (buildIndex kc d1.rows) k = none
      ∧ assocGet (buildIndex kc d2.rows) k = none
      ∧ (∀ e ∈ (performComparison d1 d2 kc).added, e.key ≠ k)
      ∧ (∀ e ∈ (performComparison d1 d2 kc).removed, e.key ≠ k)
      ∧ (∀ e ∈ (performComparison d1 d2 kc).changed, e.key ≠ k)
      ∧ (∀ e ∈ (performComparison d1 d2 kc).unchanged, e.key ≠ k))
    ∧ (trimStr k ≠ [] →
      assocGet (buildIndex kc d1.rows) k
        = (d1.rows.filter
            (fun r => decide (assocGet r kc = some k))).getLast?) := by
  constructor
  · intro hk
    have hnone1 : assocGet (buildIndex kc d1.rows) k = none :=
      buildIndex_get_blank kc k d1.rows hk
    have hnone2 : assocGet (buildIndex kc d2.rows) k = none :=
      buildIndex_get_blank kc k d2.rows hk
    have hmem1 : k ∉ keysOf (buildIndex kc d1.rows) :=
      (assocGet_eq_none_iff _ _).mp hnone1
    have hmem2 : k ∉ keysOf (buildIndex kc d2.rows) :=
      (assocGet_eq_none_iff _ _).mp hnone2
    refine ⟨hnone1, hnone2, ?_, ?_, ?_, ?_⟩
    · intro e he hek
      exact hmem2 ((mem_added_keys_iff d1 d2 kc k).mp ⟨e, he, hek⟩).1
    · intro e he hek
      exact hmem1 ((mem_removed_keys_iff d1 d2 kc k).mp ⟨e, he, hek⟩).1
    · intro e he hek
      rcases (mem_changed_keys_iff d1 d2 kc k).mp ⟨e, he, hek⟩
        with ⟨r1, r2, hg, _, _⟩
      rw [hnone1] at hg
      exact Option.noConfusion hg
    · intro e he hek
      rcases (mem_unchanged_keys_iff d1 d2 kc k).mp ⟨e, he, hek⟩
        with ⟨r1, r2, hg, _, _⟩
      rw [hnone1] at hg
      exact Option.noConfusion hg
  · intro hk
    exact buildIndex_get_valid kc k d1.rows hk

/-- Witness for C3 on concrete rows: the blank key is absent from the
index, and the duplicated key `1` maps to the last row carrying it. -/
theorem c3_blank_excluded_and_last_write_wins_witness :
    assocGet (buildIndex (s2l "id") exDupRows) [] = none
    ∧ assocGet (buildIndex (s2l "id") exDupRows) (s2l "1")
        = (exDupRows.filter
            (fun r => decide (assocGet r (s2l "id") = some (s2l "1")))).getLast?
    ∧ assocGet (buildIndex (s2l "id") exDupRows) (s2l "1")
        = some [(s2l "id", s2l "1"), (s2l "v", s2l "c")] := by
  have h := c3_blank_excluded_and_last_write_wins (s2l "id") []
    ⟨[s2l "id", s2l "v"], exDupRows, s2l "カンマ"⟩
    ⟨[s2l "id", s2l "v"], exDupRows, s2l "カンマ"⟩
  have h1 := c3_blank_excluded_and_last_write_wins (s2l "id") (s2l "1")
    ⟨[s2l "id", s2l "v"], exDupRows, s2l "カンマ"⟩
    ⟨[s2l "id", s2l "v"], exDupRows, s2l "カンマ"⟩
  exact ⟨(h.1 (by decide)).1, h1.2 (by decide), by decide⟩

/-! ## Claim C6 -/

theorem indexFold_length (kc : Str) :
    ∀ (rows : List Record) (m : List (Str × Record)),
      (∀ row ∈ rows, ∃ k, assocGet row kc = some k ∧ k ≠ []
        ∧ trimStr k ≠ [] ∧ k ∉ keysOf m)
      → (rows.map (fun r => assocGet r kc)).Nodup
      → (rows.foldl (indexStep kc) m).length = m.length + rows.length := by
  intro rows
  induction rows with
  | nil => intro m _ _; simp
  | cons r rs ih =>
    intro m h hnd
    obtain ⟨k, hget, hk1, hk2, hkm⟩ := h r (List.mem_cons_self r rs)
    have hstep : indexStep kc m r = assocSet m k r := by
      simp only [indexStep, hget, if_pos (And.intro hk1 hk2)]
    have hlen : (assocSet m k r).length = m.length + 1 := by
      have hkeys := keysOf_assocSet m k r
      rw [if_neg hkm] at hkeys
      have h1 : (keysOf (assocSet m k r)).length = (keysOf m ++ [k]).length :=
        by rw [hkeys]
      simpa [keysOf] using h1
    rw [List.foldl_cons, hstep, ih]
    · rw [hlen, List.length_cons]
      omega
    · intro row' hrow'
      obtain ⟨k', hget', hk1', hk2', hkm'⟩ :=
        h row' (List.mem_cons_of_mem r hrow')
      refine ⟨k', hget', hk1', hk2', ?_⟩
      rw [mem_keysOf_assocSet]
      rintro (hc | hc)
      · exact hkm' hc
      · subst hc
        have hmem : assocGet row' kc ∈ rs.map (fun r => assocGet r kc) :=
          List.mem_map_of_mem (fun r => assocGet r kc) hrow'
        rw [hget'] at hmem
        rw [← hget] at hmem
        exact (List.nodup_cons.mp (by simpa using hnd)).1 hmem
    · exact (List.nodup_cons.mp (by simpa using hnd)).2

/-- Counterexample to claim C6 as stated: the dataset parsed from
`"id,v\n1,x\n1,x"` (two identical rows sharing key `1`) compared against
itself gives `unchanged.length = 1` but `stats.total1 = 2`: for identical
inputs `unchanged.length` need not equal `total1`. -/
theorem c6_counterexample :
    parseFile (s2l "id,v\n1,x\n1,x") (s2l "a.csv") DelimOverride.auto
      = .ok exDupKeyDataset
    ∧ (performComparison exDupKeyDataset exDupKeyDataset (s2l "id")).added = []
    ∧ (performComparison exDupKeyDataset exDupKeyDataset
        (s2l "id")).removed = []
    ∧ (performComparison exDupKeyDataset exDupKeyDataset
        (s2l "id")).changed = []
    ∧ (performComparison exDupKeyDataset exDupKeyDataset
        (s2l "id")).unchanged.length = 1
    ∧ (performComparison exDupKeyDataset exDupKeyDataset
        (s2l "id")).stats.total1 = 2
    ∧ ¬((performComparison exDupKeyDataset exDupKeyDataset
          (s2l "id")).unchanged.length
        = (performComparison exDupKeyDataset exDupKeyDataset
            (s2l "id")).stats.total1) := by
  refine ⟨rfl, rfl, rfl, rfl, rfl, rfl, ?_⟩
  decide

/-- Claim C6 (amended): comparing a dataset against itself yields empty
`added`, `removed` and `changed` lists, and `unchanged` has exactly one
entry per index entry; when moreover every row carries a non-blank key and
the rows' keys are pairwise distinct, `unchanged.length` equals
`stats.total1` and `stats.total2`. -/
theorem c6_identical_datasets (d : ParsedDataset) (kc : Str) :
    (performComparison d d kc).added = []
    ∧ (performComparison d d kc).removed = []
    ∧ (performComparison d d kc).changed = []
    ∧ (performComparison d d kc).unchanged.length
        = (buildIndex kc d.rows).length
    ∧ ((∀ row ∈ d.rows, ∃ k, assocGet row kc = some k
          ∧ k ≠ [] ∧ trimStr k ≠ []) →
        (d.rows.map (fun r => assocGet r kc)).Nodup →
        (performComparison d d kc).unchanged.length
            = (performComparison d d kc).stats.total1
        ∧ (performComparison d d kc).unchanged.length
            = (performComparison d d kc).stats.total2) := by
  have hadded : (performComparison d d kc).added = [] := by
    rw [performComparison_added]
    have : (buildIndex kc d.rows).filter
        (fun p => !assocHas (buildIndex kc d.rows) p.1) = [] := by
      rw [List.filter_eq_nil_iff]
      intro p hp
      have : assocHas (buildIndex kc d.rows) p.1 = true :=
        (assocHas_iff _ _).mpr (List.mem_map_of_mem Prod.fst hp)
      simp [this]
    rw [this]
    rfl
  have hremoved : (performComparison d d kc).removed = [] := by
    rw [performComparison_removed]
    have : (buildIndex kc d.rows).filter
        (fun p => !assocHas (buildIndex kc d.rows) p.1) = [] := by
      rw [List.filter_eq_nil_iff]
      intro p hp
      have : assocHas (buildIndex kc d.rows) p.1 = true :=
        (assocHas_iff _ _).mpr (List.mem_map_of_mem Prod.fst hp)
      simp [this]
    rw [this]
    rfl
  have hget_self : ∀ p ∈ buildIndex kc d.rows,
      assocGet (buildIndex kc d.rows) p.1 = some p.2 := by
    intro p hp
    have hmem : (p.1, p.2) ∈ buildIndex kc d.rows := by simpa using hp
    exact assocGet_of_mem_nodup hmem (buildIndex_nodup kc d.rows)
  have hchanged : (performComparison d d kc).changed = [] := by
    rw [performComparison_changed]
    have : (buildIndex kc d.rows).filter
        (changedCondition (buildIndex kc d.rows)) = [] := by
      rw [List.filter_eq_nil_iff]
      intro p hp
      unfold changedCondition
      rw [hget_self p hp]
      simp [computeDifferences_self]
    rw [this]
    rfl
  have hunchanged : (performComparison d d kc).unchanged.length
      = (buildIndex kc d.rows).length := by
    rw [performComparison_unchanged]
    have : (buildIndex kc d.rows).filter
        (unchangedCondition (buildIndex kc d.rows))
        = buildIndex kc d.rows := by
      rw [List.filter_eq_self]
      intro p hp
      unfold unchangedCondition
      rw [hget_self p hp]
      simp [computeDifferences_self]
    rw [this, List.length_map]
  refine ⟨hadded, hremoved, hchanged, hunchanged, ?_⟩
  intro hvalid hnd
  have hlen : (buildIndex kc d.rows).length = d.rows.length := by
    unfold buildIndex
    rw [indexFold_length kc d.rows []]
    · simp
    · intro row hrow
      obtain ⟨k, hget, hk1, hk2⟩ := hvalid row hrow
      exact ⟨k, hget, hk1, hk2, by simp [keysOf]⟩
    · exact hnd
  constructor
  · rw [hunchanged, hlen]
    rfl
  · rw [hunchanged, hlen]
    rfl

/-- Witness for the amended claim C6 on a concrete dataset with two rows
whose keys `1` and `2` are distinct and non-blank: all difference lists are
empty and `unchanged.length = total1 = total2 = 2`. -/
theorem c6_identical_datasets_witness :
    (performComparison exDataset2 exDataset2 (s2l "id")).added = []
    ∧ (performComparison exDataset2 exDataset2 (s2l "id")).removed = []
    ∧ (performComparison exDataset2 exDataset2 (s2l "id")).changed = []
    ∧ (performComparison exDataset2 exDataset2 (s2l "id")).unchanged.length
        = (performComparison exDataset2 exDataset2 (s2l "id")).stats.total1
    ∧ (performComparison exDataset2 exDataset2 (s2l "id")).unchanged.length
        = (performComparison exDataset2 exDataset2 (s2l "id")).stats.total2 := by
  have h := c6_identical_datasets exDataset2 (s2l "id")
  have hcond := h.2.2.2.2 (by decide) (by decide)
  exact ⟨h.1, h.2.1, h.2.2.1, hcond.1, hcond.2⟩

/-! ## Claim C5 -/

theorem not_csv_of_tsv {f : Str}
    (h : strEndsWith f (s2l ".tsv") = true) :
    strEndsWith f (s2l ".csv") = false := by
  simp only [strEndsWith, decide_eq_true_eq] at h
  rw [strEndsWith, decide_eq_false_iff_not]
  intro hc
  have h4 : (s2l ".csv").length = (s2l ".tsv").length := rfl
  rw [h4] at hc
  rw [h] at hc
  exact absurd hc (by decide)

/-- Claim C5: the resolver returns the override's mapped character whenever
the override is not `auto`, ignoring content and filename; under `auto` a
`.csv` / `.tsv` filename extension (case-insensitive) forces comma / tab;
otherwise the result is the candidate whose count in the first line of the
content is maximal, with tab returned when all four counts are zero and
ties broken in the fixed priority order tab, comma, semicolon, pipe (a
candidate is only chosen if all earlier-priority candidates have strictly
smaller counts). -/
theorem c5_delimiter_resolution (content filename : Str) :
    (∀ sel, sel ≠ DelimOverride.auto →
      getDelimiter content filename sel = overrideChar sel)
    ∧ (strEndsWith (toLowerStr filename) (s2l ".csv") = true →
        getDelimiter content filename DelimOverride.auto = ',')
    ∧ (strEndsWith (toLowerStr filename) (s2l ".tsv") = true →
        getDelimiter content filename DelimOverride.auto = '\t')
    ∧ (strEndsWith (toLowerStr filename) (s2l ".csv") = false →
      strEndsWith (toLowerStr filename) (s2l ".tsv") = false →
        ((∀ c ∈ delimCandidates, (splitLines content).headI.count c = 0) →
          getDelimiter content filename DelimOverride.auto = '\t')
        ∧ getDelimiter content filename DelimOverride.auto ∈ delimCandidates
        ∧ (∀ c ∈ delimCandidates,
            (splitLines content).headI.count c
              ≤ (splitLines content).headI.count
                  (getDelimiter content filename DelimOverride.auto))
        ∧ (getDelimiter content filename DelimOverride.auto = ',' →
            (splitLines content).headI.count '\t'
              < (splitLines content).headI.count ',')
        ∧ (getDelimiter content filename DelimOverride.auto = ';' →
            (splitLines content).headI.count '\t'
                < (splitLines content).headI.count ';'
            ∧ (splitLines content).headI.count ','
                < (splitLines content).headI.count ';')
        ∧ (getDelimiter content filename DelimOverride.auto = '|' →
            (splitLines content).headI.count '\t'
                < (splitLines content).headI.count '|'
            ∧ (splitLines content).headI.count ','
                < (splitLines content).headI.count '|'
            ∧ (splitLines content).headI.count ';'
                < (splitLines content).headI.count '|')) := by
  refine ⟨?_, ?_, ?_, ?_⟩
  · intro sel hsel
    cases sel with
    | auto => exact absurd rfl hsel
    | tab => rfl
    | comma => rfl
    | semicolon => rfl
    | pipe => rfl
  · intro hcsv
    simp [getDelimiter, hcsv]
  · intro htsv
    have hcsv := not_csv_of_tsv htsv
    simp [getDelimiter, hcsv, htsv]
  · intro hcsv htsv
    have hexp : getDelimiter content filename DelimOverride.auto
        = (if max (max (max ((splitLines content).headI.count '\t')
              ((splitLines content).headI.count ','))
              ((splitLines content).headI.count ';'))
              ((splitLines content).headI.count '|') = 0 then '\t'
          else if (splitLines content).headI.count '\t'
              = max (max (max ((splitLines content).headI.count '\t')
                ((splitLines content).headI.count ','))
                ((splitLines content).headI.count ';'))
                ((splitLines content).headI.count '|') then '\t'
          else if (splitLines content).headI.count ','
              = max (max (max ((splitLines content).headI.count '\t')
                ((splitLines content).headI.count ','))
                ((splitLines content).headI.count ';'))
                ((splitLines content).headI.count '|') then ','
          else if (splitLines content).headI.count ';'
              = max (max (max ((splitLines content).headI.count '\t')
                ((splitLines content).headI.count ','))
                ((splitLines content).headI.count ';'))
                ((splitLines content).headI.count '|') then ';'
          else if (splitLines content).headI.count '|'
              = max (max (max ((splitLines content).headI.count '\t')
                ((splitLines content).headI.count ','))
                ((splitLines content).headI.count ';'))
                ((splitLines content).headI.count '|') then '|'
          else '\t') := by
      simp [getDelimiter, hcsv, htsv]
    have hle1 : (splitLines content).headI.count '\t'
        ≤ max (max (max ((splitLines content).headI.count '\t')
          ((splitLines content).headI.count ','))
          ((splitLines content).headI.count ';'))
          ((splitLines content).headI.count '|') := by
      calc (splitLines content).headI.count '\t'
          ≤ max ((splitLines content).headI.count '\t')
              ((splitLines content).headI.count ',') := le_max_left _ _
        _ ≤ max (max ((splitLines content).headI.count '\t')
              ((splitLines content).headI.count ','))
              ((splitLines content).headI.count ';') := le_max_left _ _
        _ ≤ _ := le_max_left _ _
    have hle2 : (splitLines content).headI.count ','
        ≤ max (max (max ((splitLines content).headI.count '\t')
          ((splitLines content).headI.count ','))
          ((splitLines content).headI.count ';'))
          ((splitLines content).headI.count '|') := by
      calc (splitLines content).headI.count ','
          ≤ max ((splitLines content).headI.count '\t')
              ((splitLines content).headI.count ',') := le_max_right _ _
        _ ≤ max (max ((splitLines content).headI.count '\t')
              ((splitLines content).headI.count ','))
              ((splitLines content).headI.count ';') := le_max_left _ _
        _ ≤ _ := le_max_left _ _
    have hle3 : (splitLines content).headI.count ';'
        ≤ max (max (max ((splitLines content).headI.count '\t')
          ((splitLines content).headI.count ','))
          ((splitLines content).headI.count ';'))
          ((splitLines content).headI.count '|') := by
      calc (splitLines content).headI.count ';'
          ≤ max (max ((splitLines content).headI.count '\t')
              ((splitLines content).headI.count ','))
              ((splitLines content).headI.count ';') := le_max_right _ _
        _ ≤ _ := le_max_left _ _
    have hle4 : (splitLines content).headI.count '|'
        ≤ max (max (max ((splitLines content).headI.count '\t')
          ((splitLines content).headI.count ','))
          ((splitLines content).headI.count ';'))
          ((splitLines content).headI.count '|') := le_max_right _ _
    have hone : max (max (max ((splitLines content).headI.count '\t')
          ((splitLines content).headI.count ','))
          ((splitLines content).headI.count ';'))
          ((splitLines content).headI.count '|')
            = (splitLines content).headI.count '\t'
        ∨ max (max (max ((splitLines content).headI.count '\t')
          ((splitLines content).headI.count ','))
          ((splitLines content).headI.count ';'))
          ((splitLines content).headI.count '|')
            = (splitLines content).headI.count ','
        ∨ max (max (max ((splitLines content).headI.count '\t')
          ((splitLines content).headI.count ','))
          ((splitLines content).headI.count ';'))
          ((splitLines content).headI.count '|')
            = (splitLines content).headI.count ';'
        ∨ max (max (max ((splitLines content).headI.count '\t')
          ((splitLines content).headI.count ','))
          ((splitLines content).headI.count ';'))
          ((splitLines content).headI.count '|')
            = (splitLines content).headI.count '|' := by
      rcases max_choice (max (max ((splitLines content).headI.count '\t')
          ((splitLines content).headI.count ','))
          ((splitLines content).headI.count ';'))
          ((splitLines content).headI.count '|') with h | h
      · rw [h]
        rcases max_choice (max ((splitLines content).headI.count '\t')
            ((splitLines content).headI.count ','))
            ((splitLines content).headI.count ';') with h' | h'
        · rw [h']
          rcases max_choice ((splitLines content).headI.count '\t')
              ((splitLines content).headI.count ',') with h'' | h''
          · exact Or.inl h''
          · exact Or.inr (Or.inl h'')
        · exact Or.inr (Or.inr (Or.inl h'))
      · exact Or.inr (Or.inr (Or.inr h))
    rw [hexp]
    have hmemlist : ∀ c : Char, c ∈ delimCandidates →
        c = '\t' ∨ c = ',' ∨ c = ';' ∨ c = '|' := by
      intro c hc
      simpa [delimCandidates] using hc
    split_ifs with h0 h1 h2 h3 h4
    · refine ⟨fun _ => rfl, by decide, ?_,
        fun h => absurd h (by decide), fun h => absurd h (by decide),
        fun h => absurd h (by decide)⟩
      intro c hc
      rcases hmemlist c hc with rfl | rfl | rfl | rfl <;> omega
    · refine ⟨fun _ => rfl, by decide, ?_,
        fun h => absurd h (by decide), fun h => absurd h (by decide),
        fun h => absurd h (by decide)⟩
      intro c hc
      rcases hmemlist c hc with rfl | rfl | rfl | rfl <;> omega
    · refine ⟨fun hz => ?_, by decide, ?_, fun _ => by omega,
        fun h => absurd h (by decide), fun h => absurd h (by decide)⟩
      · exfalso
        have z1 := hz '\t' (by decide)
        have z2 := hz ',' (by decide)
        have z3 := hz ';' (by decide)
        have z4 := hz '|' (by decide)
        rcases hone with h | h | h | h <;> omega
      · intro c hc
        rcases hmemlist c hc with rfl | rfl | rfl | rfl <;> omega
    · refine ⟨fun hz => ?_, by decide, ?_,
        fun h => absurd h (by decide), fun _ => ⟨by omega, by omega⟩,
        fun h => absurd h (by decide)⟩
      · exfalso
        have z1 := hz '\t' (by decide)
        have z2 := hz ',' (by decide)
        have z3 := hz ';' (by decide)
        have z4 := hz '|' (by decide)
        rcases hone with h | h | h | h <;> omega
      · intro c hc
        rcases hmemlist c hc with rfl | rfl | rfl | rfl <;> omega
    · refine ⟨fun hz => ?_, by decide, ?_,
        fun h => absurd h (by decide), fun h => absurd h (by decide),
        fun _ => ⟨by omega, by omega, by omega⟩⟩
      · exfalso
        have z1 := hz '\t' (by decide)
        have z2 := hz ',' (by decide)
        have z3 := hz ';' (by decide)
        have z4 := hz '|' (by decide)
        rcases hone with h | h | h | h <;> omega
      · intro c hc
        rcases hmemlist c hc with rfl | rfl | rfl | rfl <;> omega
    · exfalso
      rcases hone with h | h | h | h <;> omega

/-- Witness for C5: a manual override, an extension-driven case, and a
count-driven case, each at concrete inputs. -/
theorem c5_delimiter_resolution_witness :
    getDelimiter (s2l "a,b") (s2l "x.txt") DelimOverride.pipe = '|'
    ∧ getDelimiter (s2l "a\tb\tc") (s2l "x.CSV") DelimOverride.auto = ','
    ∧ getDelimiter (s2l "a,b,c\td") (s2l "x.txt") DelimOverride.auto = ',' := by
  have h1 := (c5_delimiter_resolution (s2l "a,b") (s2l "x.txt")).1
    DelimOverride.pipe (by decide)
  have h2 := (c5_delimiter_resolution (s2l "a\tb\tc") (s2l "x.CSV")).2.1
    (by decide)
  have h3 := c5_delimiter_resolution (s2l "a,b,c\td") (s2l "x.txt")
  exact ⟨h1, h2, by decide⟩

/-! ## Trimming lemmas -/

theorem dropWhile_cons_head {p : Char → Bool} :
    ∀ (l : Str) (c : Char) (rest : Str),
      l.dropWhile p = c :: rest → p c = false := by
  intro l
  induction l with
  | nil => intro c rest h; simp at h
  | cons a as ih =>
    intro c rest h
    rw [List.dropWhile_cons] at h
    by_cases hp : p a
    · rw [if_pos hp] at h
      exact ih c rest h
    · rw [if_neg hp] at h
      injection h with h1 _
      subst h1
      exact Bool.not_eq_true _ ▸ (by simpa using hp)

theorem dropEnd_append_rest (p : Char → Bool) (l : Str) :
    ∃ t, l = dropEnd p l ++ t ∧ ∀ c ∈ t, p c = true := by
  refine ⟨(l.reverse.takeWhile p).reverse, ?_, ?_⟩
  · unfold dropEnd
    calc l = l.reverse.reverse := by rw [List.reverse_reverse]
    _ = (l.reverse.takeWhile p ++ l.reverse.dropWhile p).reverse := by
        rw [List.takeWhile_append_dropWhile]
    _ = (l.reverse.dropWhile p).reverse ++ (l.reverse.takeWhile p).reverse :=
        by rw [List.reverse_append]
  · intro c hc
    rw [List.mem_reverse] at hc
    exact List.mem_takeWhile_imp hc

theorem mem_dropEnd (p : Char → Bool) (l : Str) (c : Char)
    (h : c ∈ dropEnd p l) : c ∈ l := by
  obtain ⟨t, ht, _⟩ := dropEnd_append_rest p l
  rw [ht]
  exact List.mem_append.mpr (Or.inl h)

theorem mem_dropWhile (p : Char → Bool) (l : Str) (c : Char)
    (h : c ∈ l.dropWhile p) : c ∈ l := by
  have hs := List.takeWhile_append_dropWhile p l
  rw [← hs]
  exact List.mem_append.mpr (Or.inr h)

theorem mem_trimStr (s : Str) (c : Char) (h : c ∈ trimStr s) : c ∈ s := by
  unfold trimStr at h
  exact mem_dropWhile isWs s c (mem_dropEnd isWs (s.dropWhile isWs) c h)

theorem trimStr_head_not_ws (s : Str) (c : Char) (rest : Str)
    (h : trimStr s = c :: rest) : isWs c = false := by
  unfold trimStr at h
  obtain ⟨t, ht, _⟩ := dropEnd_append_rest isWs (s.dropWhile isWs)
  rw [h] at ht
  exact dropWhile_cons_head s c (rest ++ t) (by rw [ht, List.cons_append])

theorem trimStr_getLast_not_ws (s : Str) (z : Char)
    (h : (trimStr s).getLast? = some z) : isWs z = false := by
  unfold trimStr dropEnd at h
  rw [List.getLast?_reverse] at h
  rcases hd : ((s.dropWhile isWs).reverse.dropWhile isWs) with _ | ⟨c, rest⟩
  · rw [hd] at h
    exact Option.noConfusion h
  · rw [hd] at h
    injection h with h1
    subst h1
    exact dropWhile_cons_head _ _ _ hd

theorem dropWhile_eq_self_of_head {p : Char → Bool} (l : Str)
    (h : ∀ c rest, l = c :: rest → p c = false) : l.dropWhile p = l := by
  cases l with
  | nil => rfl
  | cons c rest =>
    rw [List.dropWhile_cons, if_neg]
    rw [h c rest rfl]
    simp

theorem dropEnd_eq_self_of_getLast {p : Char → Bool} (l : Str)
    (h : ∀ z, l.getLast? = some z → p z = false) : dropEnd p l = l := by
  unfold dropEnd
  rw [dropWhile_eq_self_of_head, List.reverse_reverse]
  intro c rest hc
  apply h
  have hrev : l.getLast? = l.reverse.head? := by
    rw [← List.getLast?_reverse l.reverse, List.reverse_reverse]
  rw [hrev, hc]
  rfl

theorem trimStr_idem (s : Str) : trimStr (trimStr s) = trimStr s := by
  show dropEnd isWs ((trimStr s).dropWhile isWs) = trimStr s
  rw [dropWhile_eq_self_of_head (trimStr s)
    (fun c rest hc => trimStr_head_not_ws s c rest hc)]
  exact dropEnd_eq_self_of_getLast (trimStr s)
    (fun z hz => trimStr_getLast_not_ws s z hz)

theorem trimStr_not_ws_mem (s : Str) (c : Char) (hc : c ∈ s)
    (hw : isWs c = false) : trimStr s ≠ [] := by
  intro hnil
  obtain ⟨t, ht, hws⟩ := dropEnd_append_rest isWs (s.dropWhile isWs)
  have hdw : s.dropWhile isWs = t := by
    unfold trimStr at hnil
    rw [hnil] at ht
    simpa using ht
  have hsplit := List.takeWhile_append_dropWhile isWs s
  have hcs : c ∈ s.takeWhile isWs ++ s.dropWhile isWs := by
    rw [hsplit]
    exact hc
  rcases List.mem_append.mp hcs with hm | hm
  · rw [List.mem_takeWhile_imp hm] at hw
    exact Bool.noConfusion hw
  · rw [hdw] at hm
    rw [hws c hm] at hw
    exact Bool.noConfusion hw

/-! ## Line-splitting lemmas -/

theorem splitOn_ne_nil (d : Char) (s : Str) : splitOn d s ≠ [] := by
  induction s with
  | nil => simp [splitOn]
  | cons c rest ih =>
    simp only [splitOn]
    by_cases hc : c = d
    · simp [hc]
    · simp only [if_neg hc]
      rcases hsp : splitOn d rest with _ | ⟨s1, ss⟩
      · simp
      · simp

theorem splitLines_ne_nil (s : Str) : splitLines s ≠ [] := by
  match s with
  | [] => simp [splitLines]
  | [c] =>
    by_cases hc : c = '\n' <;> simp [splitLines, hc]
  | c :: d :: rest =>
    simp only [splitLines]
    by_cases h1 : c = '\n'
    · simp [h1]
    · rw [if_neg h1]
      by_cases h2 : (decide (c = '\r') && decide (d = '\n')) = true
      · rw [if_pos h2]
        simp
      · rw [if_neg h2]
        rcases hsp : splitLines (d :: rest) with _ | ⟨s1, ss⟩
        · simp
        · simp

theorem getLast?_cons_ne_nil {α : Type} (x : α) (l : List α) (h : l ≠ []) :
    (x :: l).getLast? = l.getLast? := by
  rw [getLast?_cons_or]
  rcases hl : l.getLast? with _ | z
  · exact absurd (List.getLast?_eq_none_iff.mp hl) h
  · rfl

theorem splitLines_head_of_not_nl (c : Char) (rest : Str)
    (h1 : c ≠ '\n') (h2 : c ≠ '\r') :
    ∃ s ss, splitLines (c :: rest) = (c :: s) :: ss := by
  match rest with
  | [] =>
    refine ⟨[], [], ?_⟩
    simp [splitLines, h1]
  | d :: rest2 =>
    simp only [splitLines]
    rw [if_neg h1, if_neg (by simp [h2])]
    rcases hsp : splitLines (d :: rest2) with _ | ⟨s1, ss⟩
    · exact absurd hsp (splitLines_ne_nil _)
    · exact ⟨s1, ss, rfl⟩

theorem splitLines_last_nonempty_aux :
    ∀ (n : Nat) (t : Str), t.length ≤ n → t ≠ [] →
      (∀ z, t.getLast? = some z → isWs z = false) →
      ∀ seg, (splitLines t).getLast? = some seg → seg ≠ [] := by
  intro n
  induction n with
  | zero =>
    intro t hlen hne
    exact absurd (List.length_eq_zero.mp (Nat.le_zero.mp hlen)) hne
  | succ n ih =>
    intro t hlen hne hlast seg hseg
    match t with
    | [] => exact absurd rfl hne
    | [c] =>
      have hc : isWs c = false := hlast c rfl
      have hcn : ¬ (c = '\n') := by
        intro he
        subst he
        simp [isWs] at hc
      rw [show splitLines [c] = [[c]] by simp [splitLines, hcn]] at hseg
      injection hseg with hseg
      subst hseg
      simp
    | c :: d :: rest =>
      by_cases h1 : c = '\n'
      · subst h1
        rw [show splitLines ('\n' :: d :: rest) = [] :: splitLines (d :: rest)
            by simp [splitLines]] at hseg
        rw [getLast?_cons_ne_nil [] _ (splitLines_ne_nil (d :: rest))] at hseg
        refine ih (d :: rest) ?_ (by simp)
          (fun z hz => hlast z (by rw [List.getLast?_cons_cons]; exact hz))
          seg hseg
        have : ('\n' :: d :: rest).length = (d :: rest).length + 1 := rfl
        omega
      · by_cases h2 : (decide (c = '\r') && decide (d = '\n')) = true
        · rw [Bool.and_eq_true] at h2
          have hc : c = '\r' := of_decide_eq_true h2.1
          have hd : d = '\n' := of_decide_eq_true h2.2
          subst hc
          subst hd
          rw [show splitLines ('\r' :: '\n' :: rest) = [] :: splitLines rest
              by simp [splitLines]] at hseg
          match rest with
          | [] =>
            have := hlast '\n' (by rfl)
            simp [isWs] at this
          | e :: rest2 =>
            rw [getLast?_cons_ne_nil [] _
              (splitLines_ne_nil (e :: rest2))] at hseg
            refine ih (e :: rest2) ?_ (by simp)
              (fun z hz => hlast z ?_) seg hseg
            · have : ('\r' :: '\n' :: e :: rest2).length
                  = (e :: rest2).length + 2 := rfl
              omega
            · rw [List.getLast?_cons_cons, List.getLast?_cons_cons]
              exact hz
        · rw [show splitLines (c :: d :: rest)
              = (match splitLines (d :: rest) with
                  | s :: ss => (c :: s) :: ss
                  | [] => [[c]]) by
            simp only [splitLines]
            rw [if_neg h1, if_neg h2]] at hseg
          rcases hsp : splitLines (d :: rest) with _ | ⟨s1, ss⟩
          · exact absurd hsp (splitLines_ne_nil _)
          · rw [hsp] at hseg
            simp only [] at hseg
            rcases hss : ss with _ | ⟨f, ss2⟩
            · subst hss
              injection hseg with hseg
              subst hseg
              simp
            · subst hss
              rw [getLast?_cons_ne_nil (c :: s1) _ (by simp)] at hseg
              refine ih (d :: rest) ?_ (by simp)
                (fun z hz => hlast z
                  (by rw [List.getLast?_cons_cons]; exact hz)) seg ?_
              · have : (c :: d :: rest).length = (d :: rest).length + 1 := rfl
                omega
              · rw [hsp, getLast?_cons_ne_nil s1 _ (by simp)]
                exact hseg

theorem splitLines_last_nonempty (t : Str) (hne : t ≠ [])
    (hlast : ∀ z, t.getLast? = some z → isWs z = false)
    (seg : Str) (hseg : (splitLines t).getLast? = some seg) : seg ≠ [] :=
  splitLines_last_nonempty_aux t.length t (Nat.le_refl _) hne hlast seg hseg

/-! ## Claim C4 -/

theorem mem_of_getLast?_eq {α : Type} :
    ∀ (l : List α) (x : α), l.getLast? = some x → x ∈ l := by
  intro l
  induction l with
  | nil => intro x h; exact Option.noConfusion h
  | cons a as ih =>
    intro x h
    rcases has : as with _ | ⟨b, bs⟩
    · subst has
      injection h with h
      subst h
      simp
    · subst has
      rw [List.getLast?_cons_cons] at h
      exact List.mem_cons_of_mem a (ih x h)

theorem splitLines_nonempty_filter_iff (t : Str) (hne : t ≠ [])
    (hhead : ∀ c rest, t = c :: rest → isWs c = false)
    (hlast : ∀ z, t.getLast? = some z → isWs z = false) :
    ((splitLines t).filter (fun l => decide (l ≠ []))).length < 2
      ↔ (splitLines t).length < 2 := by
  constructor
  · intro h
    by_contra hlen
    rcases ht : t with _ | ⟨c, rest⟩
    · exact hne ht
    · have hc : isWs c = false := hhead c rest ht
      have hcn : c ≠ '\n' := by
        intro he
        rw [he] at hc
        simp [isWs] at hc
      have hcr : c ≠ '\r' := by
        intro he
        rw [he] at hc
        simp [isWs] at hc
      obtain ⟨s, ss, hsp⟩ := splitLines_head_of_not_nl c rest hcn hcr
      rw [← ht] at hsp
      have hss : ss ≠ [] := by
        intro he
        rw [he] at hsp
        rw [hsp] at hlen
        simp at hlen
      rcases hl : (splitLines t).getLast? with _ | seg
      · exact absurd (List.getLast?_eq_none_iff.mp hl) (splitLines_ne_nil t)
      · have hsegne : seg ≠ [] := splitLines_last_nonempty t hne hlast seg hl
        have hsegmem : seg ∈ ss := by
          rw [hsp, getLast?_cons_ne_nil _ _ hss] at hl
          exact mem_of_getLast?_eq ss seg hl
        have hfss : seg ∈ ss.filter (fun l => decide (l ≠ [])) :=
          List.mem_filter.mpr ⟨hsegmem, decide_eq_true hsegne⟩
        have hf2 : 2 ≤ ((splitLines t).filter
            (fun l => decide (l ≠ []))).length := by
          rw [hsp, List.filter_cons, if_pos (by simp)]
          have : ss.filter (fun l => decide (l ≠ [])) ≠ [] := by
            intro he
            rw [he] at hfss
            simp at hfss
          have h1 : 1 ≤ (ss.filter (fun l => decide (l ≠ []))).length :=
            List.length_pos.mpr this
          simp only [List.length_cons]
          omega
        omega
  · intro h
    have := List.length_filter_le (fun l => decide (l ≠ [])) (splitLines t)
    omega

/-- Claim C4: `parseFile` fails with a `ParseError` exactly when the content
is empty or all-whitespace, or fewer than two non-empty lines remain after
trimming, or some header field is empty after trimming, or no data row
survives blank-row elision; on every other input it returns a dataset
without raising. -/
theorem c4_parse_failure_characterization (content filename : Str)
    (sel : DelimOverride) :
    (∃ e, parseFile content filename sel = .error e)
      ↔ trimStr content = []
        ∨ ((splitLines (trimStr content)).filter
            (fun l => decide (l ≠ []))).length < 2
        ∨ (∃ hd ∈ (splitOn (getDelimiter content filename sel)
              (splitLines (trimStr content)).headI).map trimStr, hd = [])
        ∨ ((splitLines (trimStr content)).drop 1).filterMap
            (rowOfLine ((splitOn (getDelimiter content filename sel)
                (splitLines (trimStr content)).headI).map trimStr)
              (getDelimiter content filename sel)) = [] := by
  by_cases hempty : trimStr content = []
  · constructor
    · intro _
      exact Or.inl hempty
    · intro _
      refine ⟨.emptyFile, ?_⟩
      simp only [parseFile]
      rw [if_pos hempty]
  · have hcnt := splitLines_nonempty_filter_iff (trimStr content) hempty
      (trimStr_head_not_ws content) (trimStr_getLast_not_ws content)
    by_cases hlines : (splitLines (trimStr content)).length < 2
    · constructor
      · intro _
        exact Or.inr (Or.inl (hcnt.mpr hlines))
      · intro _
        refine ⟨.needHeaderAndData, ?_⟩
        simp only [parseFile]
        rw [if_neg hempty, if_pos hlines]
    · by_cases hhdr : ((splitOn (getDelimiter content filename sel)
          (splitLines (trimStr content)).headI).map trimStr).any
            (fun h => decide (h = [])) = true
      · constructor
        · intro _
          refine Or.inr (Or.inr (Or.inl ?_))
          rcases List.any_eq_true.mp hhdr with ⟨x, hx, hxe⟩
          exact ⟨x, hx, of_decide_eq_true hxe⟩
        · intro _
          refine ⟨.emptyHeader, ?_⟩
          simp only [parseFile]
          rw [if_neg hempty, if_neg hlines, if_pos hhdr]
      · by_cases hrows : ((splitLines (trimStr content)).drop 1).filterMap
            (rowOfLine ((splitOn (getDelimiter content filename sel)
                (splitLines (trimStr content)).headI).map trimStr)
              (getDelimiter content filename sel)) = []
        · constructor
          · intro _
            exact Or.inr (Or.inr (Or.inr hrows))
          · intro _
            refine ⟨.noDataRows, ?_⟩
            simp only [parseFile]
            rw [if_neg hempty, if_neg hlines, if_neg hhdr, if_pos hrows]
        · constructor
          · rintro ⟨e, he⟩
            simp only [parseFile] at he
            rw [if_neg hempty, if_neg hlines, if_neg hhdr, if_neg hrows] at he
            exact Except.noConfusion he
          · rintro (h | h | h | h)
            · exact absurd h hempty
            · exact absurd (hcnt.mp h) hlines
            · rcases h with ⟨x, hx, hxe⟩
              exact absurd (List.any_eq_true.mpr
                ⟨x, hx, decide_eq_true hxe⟩) hhdr
            · exact absurd h hrows

/-! ## Row-building lemmas -/

theorem buildRow_append (hs : List Str) (h0 : Str) (vs : List Str) :
    buildRow (hs ++ [h0]) vs
      = assocSet (buildRow hs vs) h0 (trimStr (vs.getD hs.length [])) := by
  unfold buildRow
  rw [List.enum_append, List.foldl_append]
  simp [List.enumFrom]

theorem assocGet_buildRow (hs vs : List Str) (h : Str) (hmem : h ∈ hs) :
    ∃ i, i < hs.length ∧ hs[i]? = some h
      ∧ (∀ j, j < hs.length → hs[j]? = some h → j ≤ i)
      ∧ assocGet (buildRow hs vs) h = some (trimStr (vs.getD i [])) := by
  induction hs using List.reverseRecOn with
  | nil => simp at hmem
  | append_singleton hs h0 ih =>
    rw [buildRow_append]
    by_cases he : h = h0
    · subst he
      refine ⟨hs.length, ?_, ?_, ?_, ?_⟩
      · simp
      · rw [List.getElem?_append_right (Nat.le_refl _)]
        simp
      · intro j hj _
        have : j < hs.length + 1 := by simpa using hj
        omega
      · rw [assocGet_assocSet, if_pos rfl]
    · have hmem' : h ∈ hs := by
        rcases List.mem_append.mp hmem with hm | hm
        · exact hm
        · simp at hm
          exact absurd hm he
      obtain ⟨i, hi, hgeti, hmax, hget⟩ := ih hmem'
      refine ⟨i, ?_, ?_, ?_, ?_⟩
      · simp
        omega
      · rw [List.getElem?_append]
        rw [if_pos hi]
        exact hgeti
      · intro j hj hgj
        have hj' : j < hs.length + 1 := by simpa using hj
        by_cases hjl : j < hs.length
        · apply hmax j hjl
          rw [List.getElem?_append, if_pos hjl] at hgj
          exact hgj
        · have hjeq : j = hs.length := by omega
          subst hjeq
          rw [List.getElem?_append_right (Nat.le_refl _)] at hgj
          simp at hgj
          exact absurd hgj.symm he
      · rw [assocGet_assocSet, if_neg (fun hc => he hc.symm)]
        exact hget

theorem mem_keysOf_buildRow (hs vs : List Str) (h : Str) :
    h ∈ keysOf (buildRow hs vs) ↔ h ∈ hs := by
  induction hs using List.reverseRecOn with
  | nil => simp [buildRow, keysOf]
  | append_singleton hs h0 ih =>
    rw [buildRow_append, mem_keysOf_assocSet, ih]
    simp

theorem nodup_keysOf_buildRow (hs vs : List Str) :
    (keysOf (buildRow hs vs)).Nodup := by
  induction hs using List.reverseRecOn with
  | nil => simp [buildRow, keysOf]
  | append_singleton hs h0 ih =>
    rw [buildRow_append]
    exact nodup_keysOf_assocSet _ _ _ ih

/-! ## Parse-success inversion -/

theorem parseFile_ok_inv (content filename : Str) (sel : DelimOverride)
    (ds : ParsedDataset) (hok : parseFile content filename sel = .ok ds) :
    ds.headers = (splitOn (getDelimiter content filename sel)
        (splitLines (trimStr content)).headI).map trimStr
    ∧ ds.rows = ((splitLines (trimStr content)).drop 1).filterMap
        (rowOfLine ((splitOn (getDelimiter content filename sel)
            (splitLines (trimStr content)).headI).map trimStr)
          (getDelimiter content filename sel))
    ∧ ds.rows ≠ []
    ∧ ds.delimiter = getDelimiterName (getDelimiter content filename sel) := by
  simp only [parseFile] at hok
  by_cases hempty : trimStr content = []
  · rw [if_pos hempty] at hok
    exact Except.noConfusion hok
  rw [if_neg hempty] at hok
  by_cases hlines : (splitLines (trimStr content)).length < 2
  · rw [if_pos hlines] at hok
    exact Except.noConfusion hok
  rw [if_neg hlines] at hok
  by_cases hhdr : ((splitOn (getDelimiter content filename sel)
      (splitLines (trimStr content)).headI).map trimStr).any
        (fun h => decide (h = [])) = true
  · rw [if_pos hhdr] at hok
    exact Except.noConfusion hok
  rw [if_neg hhdr] at hok
  by_cases hrows : ((splitLines (trimStr content)).drop 1).filterMap
      (rowOfLine ((splitOn (getDelimiter content filename sel)
          (splitLines (trimStr content)).headI).map trimStr)
        (getDelimiter content filename sel)) = []
  · rw [if_pos hrows] at hok
    exact Except.noConfusion hok
  rw [if_neg hrows] at hok
  injection hok with hok
  subst hok
  exact ⟨rfl, rfl, hrows, rfl⟩

theorem rowOfLine_some_inv (headers : List Str) (delimiter : Char)
    (line : Str) (row : Record)
    (h : rowOfLine headers delimiter line = some row) :
    trimStr line ≠ []
    ∧ row = buildRow headers (splitOn delimiter (trimStr line))
    ∧ row.any (fun p => decide (p.2 ≠ [])) = true := by
  simp only [rowOfLine] at h
  by_cases hlb : trimStr line = []
  · rw [if_pos hlb] at h
    exact Option.noConfusion h
  rw [if_neg hlb] at h
  by_cases hany : (buildRow headers (splitOn delimiter (trimStr line))).any
      (fun p => decide (p.2 ≠ [])) = true
  · rw [if_pos hany] at h
    injection h with h
    subst h
    exact ⟨hlb, rfl, hany⟩
  · rw [if_neg hany] at h
    exact Option.noConfusion h

/-! ## Claims C7 and C10 -/

/-- Claim C7: every dataset returned by `parseFile` has at least one header
and at least one row; every row maps each header to a trimmed value (fields
past the end of a short line default to the empty string, so the mapping is
total on the headers); no all-empty row is kept; and the rows are exactly
the surviving data lines in input order (a `filterMap` over the lines after
the header, with no reordering). -/
theorem c7_parsed_dataset_invariants (content filename : Str)
    (sel : DelimOverride) (ds : ParsedDataset)
    (hok : parseFile content filename sel = .ok ds) :
    1 ≤ ds.headers.length
    ∧ 1 ≤ ds.rows.length
    ∧ (∀ row ∈ ds.rows,
        (∀ hd ∈ ds.headers, ∃ v, assocGet row hd = some v ∧ trimStr v = v)
        ∧ ∃ p ∈ row, p.2 ≠ [])
    ∧ ds.rows = ((splitLines (trimStr content)).drop 1).filterMap
        (rowOfLine ds.headers (getDelimiter content filename sel)) := by
  obtain ⟨hh, hr, hrne, _⟩ := parseFile_ok_inv content filename sel ds hok
  refine ⟨?_, ?_, ?_, ?_⟩
  · rw [hh]
    have hne := splitOn_ne_nil (getDelimiter content filename sel)
      (splitLines (trimStr content)).headI
    have hpos := List.length_pos.mpr hne
    simpa using hpos
  · exact List.length_pos.mpr hrne
  · intro row hrow
    rw [hr] at hrow
    rcases List.mem_filterMap.mp hrow with ⟨line, _, hrl⟩
    obtain ⟨_, hrow_eq, hany⟩ := rowOfLine_some_inv _ _ _ _ hrl
    constructor
    · intro hd hhd
      rw [hh] at hhd
      obtain ⟨i, _, _, _, hget⟩ := assocGet_buildRow
        ((splitOn (getDelimiter content filename sel)
          (splitLines (trimStr content)).headI).map trimStr)
        (splitOn (getDelimiter content filename sel) (trimStr line)) hd hhd
      rw [hrow_eq]
      exact ⟨trimStr ((splitOn (getDelimiter content filename sel)
        (trimStr line)).getD i []), hget, trimStr_idem _⟩
    · rcases List.any_eq_true.mp hany with ⟨p, hp, hpe⟩
      exact ⟨p, hp, of_decide_eq_true hpe⟩
  · rw [hr, hh]

/-- Witness for C7 at the spec's parsing scenario `"a,b\n1,2\n\n3,4"`:
the parse succeeds with two headers and two rows (blank line elided). -/
theorem c7_parsed_dataset_invariants_witness :
    parseFile (s2l "a,b\n1,2\n\n3,4") (s2l "x.txt") DelimOverride.auto
      = .ok exParsedAB
    ∧ 1 ≤ exParsedAB.headers.length
    ∧ 1 ≤ exParsedAB.rows.length := by
  have h := c7_parsed_dataset_invariants (s2l "a,b\n1,2\n\n3,4")
    (s2l "x.txt") DelimOverride.auto exParsedAB rfl
  exact ⟨rfl, h.1, h.2.1⟩

/-- Claim C10: when the header row repeats a column name, every record
returned by `parseFile` holds a single entry per distinct name (its key
list has no duplicates and covers exactly the header names), and that entry
holds the trimmed field at the last occurrence's position in the line, so
the blank-row elision and the diff passes only ever see these collapsed
values. -/
theorem c10_duplicate_headers_collapse (content filename : Str)
    (sel : DelimOverride) (ds : ParsedDataset)
    (hok : parseFile content filename sel = .ok ds) :
    ∀ row ∈ ds.rows,
      (keysOf row).Nodup
      ∧ (∀ hd, hd ∈ keysOf row ↔ hd ∈ ds.headers)
      ∧ ∃ values : List Str,
          row = buildRow ds.headers values
          ∧ ∀ hd ∈ ds.headers, ∃ i, i < ds.headers.length
              ∧ ds.headers[i]? = some hd
              ∧ (∀ j, j < ds.headers.length → ds.headers[j]? = some hd →
                  j ≤ i)
              ∧ assocGet row hd = some (trimStr (values.getD i [])) := by
  obtain ⟨hh, hr, _, _⟩ := parseFile_ok_inv content filename sel ds hok
  intro row hrow
  rw [hr] at hrow
  rcases List.mem_filterMap.mp hrow with ⟨line, _, hrl⟩
  obtain ⟨_, hrow_eq, _⟩ := rowOfLine_some_inv _ _ _ _ hrl
  rw [hrow_eq, ← hh]
  refine ⟨nodup_keysOf_buildRow _ _, fun hd => mem_keysOf_buildRow _ _ hd,
    ⟨splitOn (getDelimiter content filename sel) (trimStr line), rfl, ?_⟩⟩
  intro hd hhd
  exact assocGet_buildRow ds.headers
    (splitOn (getDelimiter content filename sel) (trimStr line)) hd hhd

/-- Witness for C10 at the duplicate-header input `"a,a\n1,2"`: the parse
succeeds, and the single row has collapsed to one entry holding the field
of the last `a` column (`2`). -/
theorem c10_duplicate_headers_collapse_witness :
    parseFile (s2l "a,a\n1,2") (s2l "x.csv") DelimOverride.auto
      = .ok exDupHeaderDataset
    ∧ (keysOf ([(s2l "a", s2l "2")] : Record)).Nodup
    ∧ assocGet ([(s2l "a", s2l "2")] : Record) (s2l "a") = some (s2l "2") := by
  have h := c10_duplicate_headers_collapse (s2l "a,a\n1,2") (s2l "x.csv")
    DelimOverride.auto exDupHeaderDataset rfl
    [(s2l "a", s2l "2")] (by simp [exDupHeaderDataset])
  exact ⟨rfl, h.1, by decide⟩

/-! ## Claim C9 -/

theorem expandCRLF_eq_nil_iff (t : Str) : expandCRLF t = [] ↔ t = [] := by
  cases t with
  | nil => simp [expandCRLF]
  | cons c rest =>
    simp only [expandCRLF]
    by_cases hc : c = '\n' <;> simp [hc]

theorem dropWhile_expandCRLF (t : Str) :
    (expandCRLF t).dropWhile isWs = expandCRLF (t.dropWhile isWs) := by
  induction t with
  | nil => rfl
  | cons c rest ih =>
    by_cases hc : c = '\n'
    · subst hc
      rw [show expandCRLF ('\n' :: rest) = '\r' :: '\n' :: expandCRLF rest
          from by simp [expandCRLF]]
      rw [List.dropWhile_cons, if_pos (by simp [isWs])]
      rw [List.dropWhile_cons, if_pos (by simp [isWs])]
      rw [List.dropWhile_cons, if_pos (by simp [isWs])]
      exact ih
    · rw [show expandCRLF (c :: rest) = c :: expandCRLF rest
          from by simp [expandCRLF, hc]]
      by_cases hw : isWs c = true
      · rw [List.dropWhile_cons, if_pos hw, List.dropWhile_cons, if_pos hw]
        exact ih
      · rw [List.dropWhile_cons, if_neg hw, List.dropWhile_cons, if_neg hw]
        simp [expandCRLF, hc]

theorem expandCRLF_append (a b : Str) :
    expandCRLF (a ++ b) = expandCRLF a ++ expandCRLF b := by
  induction a with
  | nil => rfl
  | cons c rest ih =>
    by_cases hc : c = '\n' <;>
      simp [expandCRLF, hc, ih]

theorem dropEnd_concat (p : Char → Bool) (l : Str) (x : Char) :
    dropEnd p (l ++ [x]) = if p x then dropEnd p l else l ++ [x] := by
  unfold dropEnd
  rw [List.reverse_append]
  simp only [List.reverse_cons, List.reverse_nil, List.nil_append,
    List.singleton_append, List.dropWhile_cons]
  by_cases hp : p x = true
  · rw [if_pos hp, if_pos hp]
  · rw [if_neg hp, if_neg hp]
    simp

theorem dropEnd_expandCRLF (t : Str) :
    dropEnd isWs (expandCRLF t) = expandCRLF (dropEnd isWs t) := by
  induction t using List.reverseRecOn with
  | nil => rfl
  | append_singleton l ch ih =>
    rw [expandCRLF_append]
    by_cases hc : ch = '\n'
    · subst hc
      rw [show expandCRLF ['\n'] = ['\r'] ++ ['\n'] from rfl]
      rw [← List.append_assoc]
      rw [dropEnd_concat, if_pos (by simp [isWs])]
      rw [dropEnd_concat, if_pos (by simp [isWs])]
      rw [dropEnd_concat, if_pos (by simp [isWs])]
      exact ih
    · rw [show expandCRLF [ch] = [ch] from by simp [expandCRLF, hc]]
      by_cases hw : isWs ch = true
      · rw [dropEnd_concat, if_pos hw, dropEnd_concat, if_pos hw]
        exact ih
      · rw [dropEnd_concat, if_neg hw, dropEnd_concat, if_neg hw]
        rw [expandCRLF_append]
        simp [expandCRLF, hc]

theorem trimStr_expandCRLF (t : Str) :
    trimStr (expandCRLF t) = expandCRLF (trimStr t) := by
  unfold trimStr
  rw [dropWhile_expandCRLF, dropEnd_expandCRLF]

theorem splitLines_lf_cons (rest : Str) :
    splitLines ('\n' :: rest) = [] :: splitLines rest := by
  cases rest with
  | nil => simp [splitLines]
  | cons d rest2 => simp [splitLines]

theorem splitLines_crlf_cons (rest : Str) :
    splitLines ('\r' :: '\n' :: rest) = [] :: splitLines rest := by
  simp [splitLines]

theorem splitLines_other_cons (c : Char) (rest : Str)
    (h1 : c ≠ '\n') (h2 : c ≠ '\r') :
    splitLines (c :: rest)
      = match splitLines rest with
        | s :: ss => (c :: s) :: ss
        | [] => [[c]] := by
  cases rest with
  | nil => simp [splitLines, h1]
  | cons d rest2 =>
    simp only [splitLines]
    rw [if_neg h1, if_neg (by simp [h2])]

theorem splitLines_expandCRLF_aux :
    ∀ (n : Nat) (t : Str), t.length ≤ n → '\r' ∉ t →
      splitLines (expandCRLF t) = splitLines t := by
  intro n
  induction n with
  | zero =>
    intro t hlen _
    rw [List.length_eq_zero.mp (Nat.le_zero.mp hlen)]
    rfl
  | succ n ih =>
    intro t hlen hnr
    match t with
    | [] => rfl
    | c :: rest =>
      have hncr : c ≠ '\r' := fun he => hnr (he ▸ List.mem_cons_self c rest)
      have hnr' : '\r' ∉ rest := fun hm => hnr (List.mem_cons_of_mem c hm)
      have hlen' : rest.length ≤ n := by
        have : (c :: rest).length = rest.length + 1 := rfl
        omega
      by_cases hc : c = '\n'
      · subst hc
        rw [show expandCRLF ('\n' :: rest) = '\r' :: '\n' :: expandCRLF rest
            from by simp [expandCRLF]]
        rw [splitLines_crlf_cons, splitLines_lf_cons, ih rest hlen' hnr']
      · rw [show expandCRLF (c :: rest) = c :: expandCRLF rest
            from by simp [expandCRLF, hc]]
        rw [splitLines_other_cons c (expandCRLF rest) hc hncr]
        rw [splitLines_other_cons c rest hc hncr]
        rw [ih rest hlen' hnr']

theorem splitLines_expandCRLF (t : Str) (hnr : '\r' ∉ t) :
    splitLines (expandCRLF t) = splitLines t :=
  splitLines_expandCRLF_aux t.length t (Nat.le_refl _) hnr

theorem getDelimiter_expandCRLF (content filename : Str)
    (sel : DelimOverride) (hnr : '\r' ∉ content) :
    getDelimiter (expandCRLF content) filename sel
      = getDelimiter content filename sel := by
  unfold getDelimiter
  rw [splitLines_expandCRLF content hnr]

/-- Claim C9: parsing a content whose line breaks are `\r\n` yields exactly
the same dataset (same headers, rows and delimiter label) and the same
error behaviour as parsing the content with plain `\n` line breaks. -/
theorem c9_crlf_lf_equivalence (content filename : Str)
    (sel : DelimOverride) (hnr : '\r' ∉ content) :
    parseFile (expandCRLF content) filename sel
      = parseFile content filename sel := by
  have htrim : trimStr (expandCRLF content) = expandCRLF (trimStr content) :=
    trimStr_expandCRLF content
  have hnr' : '\r' ∉ trimStr content := fun h => hnr (mem_trimStr _ _ h)
  have hsplit : splitLines (expandCRLF (trimStr content))
      = splitLines (trimStr content) :=
    splitLines_expandCRLF _ hnr'
  have hdelim : getDelimiter (expandCRLF content) filename sel
      = getDelimiter content filename sel :=
    getDelimiter_expandCRLF content filename sel hnr
  simp only [parseFile, htrim, hsplit, hdelim]
  by_cases he : trimStr content = []
  · rw [he]
    rfl
  · rw [if_neg he, if_neg (fun hc => he ((expandCRLF_eq_nil_iff _).mp hc))]

/-- Witness for C9 at the concrete content `"a,b\n1,2"` (no carriage
returns): the `\r\n` form parses identically. -/
theorem c9_crlf_lf_equivalence_witness :
    parseFile (expandCRLF (s2l "a,b\n1,2")) (s2l "x.txt") DelimOverride.auto
      = parseFile (s2l "a,b\n1,2") (s2l "x.txt") DelimOverride.auto :=
  c9_crlf_lf_equivalence (s2l "a,b\n1,2") (s2l "x.txt") DelimOverride.auto
    (by decide)
